import Mathlib

/-!
# Verification development for the eeva challenge modules

A shallow embedding of the native challenge modules under
`damnvulnerableapp/app/src/main/cpp/modules/`.

Conventions of the embedding:

* a byte is a `Nat` below 256; a byte array is a `List Nat`;
* pointers are 8 bytes wide and stored little-endian (the 64-bit Android ABIs);
* the address space is a function from addresses to bytes, indexed modulo `2 ^ 64`;
* a JNI entry point returns `JResult.bytes` (a Java byte array), `JResult.null`
  (the `NULL` reference) or `JResult.undef` when the C code leaves defined behaviour
  in a way the embedding does not follow further;
* `GetByteArrayElements` may fail: an input of type `Option (List Nat)` is `none` when
  it returned `NULL` and `some bytes` when the elements are readable; an entry point
  whose input is a plain `List Nat` is embedded for readable inputs;
* a Java array has fewer than `2 ^ 31` elements, so `GetArrayLength` is the length of
  the list, also after its conversion to `uint32_t`.
-/

namespace Eeva

/-! ## Bytes, little-endian words, results -/

/-- Outcome of a JNI entry point that returns a `jbyteArray`. -/
inductive JResult where
  | bytes (bs : List Nat)
  | null
  | undef
  deriving DecidableEq, Repr

/-- The `n` little-endian bytes of `v`. -/
def le_bytes : Nat → Nat → List Nat
  | 0, _ => []
  | n + 1, v => (v % 256) :: le_bytes n (v / 256)

/-- The number whose little-endian bytes are `bs`. -/
def le_value : List Nat → Nat
  | [] => 0
  | b :: bs => b + 256 * le_value bs

/-- Overwrite `dst` from offset `off` on with the bytes `src` (a `memcpy` into a region). -/
def blit (dst : List Nat) (off : Nat) (src : List Nat) : List Nat :=
  dst.take off ++ src ++ dst.drop (off + src.length)

/-- Index of the first zero byte, the result of scanning a C string; `none` when the
scan leaves the modelled region. -/
def c_strlen : List Nat → Option Nat
  | [] => none
  | b :: bs => if b = 0 then some 0 else (c_strlen bs).map (· + 1)

/-- Layout of a C struct from the (size, alignment) of its fields: the offsets of the
fields and the size of the struct, padded to the largest alignment. -/
def struct_layout (fields : List (Nat × Nat)) : List Nat × Nat :=
  let align_up (x a : Nat) : Nat := (x + a - 1) / a * a
  let step (acc : List Nat × Nat) (f : Nat × Nat) : List Nat × Nat :=
    let off := align_up acc.2 f.2
    (acc.1 ++ [off], off + f.1)
  let r := fields.foldl step ([], 0)
  (r.1, align_up r.2 (fields.foldl (fun a f => max a f.2) 1))

/-! ## OffByOneModule.c -/

namespace OffByOneModule

/-- The macro `BUFFER_SIZE`. -/
def BUFFER_SIZE : Nat := 0x100

/-- The macro `DEFAULT_FILTER`. -/
def DEFAULT_FILTER : Nat := 0

/-- The macro `NEW_FILTER`. -/
def NEW_FILTER : Nat := 1

/-- Layout of `struct logged_data`: `char message[BUFFER_SIZE]` then a function pointer. -/
def logged_data_layout : List Nat × Nat := struct_layout [(BUFFER_SIZE, 1), (8, 8)]

/-- Offset of the field `filter` in `struct logged_data`. -/
def offsetof_filter : Nat := logged_data_layout.1.getD 1 0

/-- The value of `sizeof(struct logged_data)`. -/
def sizeof_logged_data : Nat := logged_data_layout.2

/-- The static table `filters`: the addresses of `default_filter` and `new_filter`
in the loaded image. -/
structure Filters where
  default_filter : Nat
  new_filter : Nat
  deriving Repr

/-- Entry `i` of the table `filters`. -/
def Filters.entry (f : Filters) (i : Nat) : Nat :=
  if i = 0 then f.default_filter else f.new_filter

/-- The statics `g_logs` (`none` is `NULL`, otherwise the bytes of the block) and
`g_logs_size`. -/
structure State where
  g_logs : Option (List Nat)
  g_logs_size : Nat
  deriving Repr

/-- The statics before the first call. -/
def State.init : State := { g_logs := none, g_logs_size := 0 }

/-- The block `realloc` returns when it succeeds: `size` bytes, the old contents first,
then indeterminate bytes `junk`. -/
def realloc_block (old : Option (List Nat)) (junk : List Nat) (size : Nat) : List Nat :=
  ((old.getD []) ++ junk ++ List.replicate size 0).take size

/-- Lines 48-50: the length handed to `memcpy`, from the array length `n`
(`jsize` arithmetic, signed). -/
def copy_length (n : Nat) : Nat :=
  if (n : Int) - 1 > (BUFFER_SIZE : Int) then BUFFER_SIZE - 1 else n

/-- Lines 45-51: the new record after `memset`, the copy of `filters[DEFAULT_FILTER]`
into the field `filter`, and the `memcpy` of the message. -/
def new_record (f : Filters) (raw_message : List Nat) : List Nat :=
  let r0 := List.replicate sizeof_logged_data 0
  let r1 := blit r0 offsetof_filter (le_bytes 8 (f.entry DEFAULT_FILTER))
  blit r1 0 (raw_message.take (copy_length raw_message.length))

/-- The field `filter` of a record, as stored. -/
def record_filter (r : List Nat) : List Nat := (r.drop offsetof_filter).take 8

/-- The function `default_filter`: copies `length` bytes into a local buffer of
`BUFFER_SIZE >> 1` bytes and returns `message`; a longer copy overruns the local
buffer. -/
def default_filter (record : List Nat) (length : Nat) : JResult :=
  if length > BUFFER_SIZE / 2 then JResult.undef
  else
    match c_strlen record with
    | none => JResult.undef
    | some k => JResult.bytes (record.take k)

/-- Lines 59-65: call the stored filter on the record and return the C string it
yields. `new_filter` returns the address of a local of its own dead frame, and any
other stored value is a jump to an arbitrary address. -/
def call_filter (f : Filters) (record : List Nat) (length : Nat) : JResult :=
  if le_value (record_filter record) = f.default_filter then default_filter record length
  else JResult.undef

/-- The entry point `logMessage`. `junk` is `none` when `realloc` fails and otherwise
the indeterminate bytes of the fresh part of the block. -/
def logMessage (f : Filters) (st : State) (junk : Option (List Nat))
    (raw_message : List Nat) : State × JResult :=
  let size := st.g_logs_size + 1
  match junk with
  | none => ({ g_logs := none, g_logs_size := size }, JResult.null)
  | some j =>
    let block := realloc_block st.g_logs j (size * sizeof_logged_data)
    let off := (size - 1) * sizeof_logged_data
    let record := new_record f raw_message
    let block1 := blit block off record
    ({ g_logs := some block1, g_logs_size := size },
      call_filter f record (copy_length raw_message.length))

/-- The record `g_logs[g_logs_size - 1]` of a state. -/
def last_record (st : State) : Option (List Nat) :=
  st.g_logs.map (fun b => (b.drop ((st.g_logs_size - 1) * sizeof_logged_data)).take
    sizeof_logged_data)

end OffByOneModule

/-! ## EasyStackBufferOverflowModule.c -/

namespace EasyStackBufferOverflowModule

/-- The libc function `toupper` in the C locale: `a`..`z` go to `A`..`Z`, every other
byte is unchanged. -/
def toupper (c : Nat) : Nat := if 0x61 ≤ c ∧ c ≤ 0x7a then c - 0x20 else c

/-- The function `perfect_strlen`: the index of the first zero byte from `str` on, as a
`uint32_t`; `none` when the scan runs out of the modelled stack. -/
def perfect_strlen (str : List Nat) : Option Nat := (c_strlen str).map (· % 2 ^ 32)

/-- The function `perfect_memcpy`: `buffer[i] = source[i]` for every `i < length`. -/
def perfect_memcpy (buffer source : List Nat) (length : Nat) : List Nat :=
  blit buffer 0 (source.take length)

/-- A 32-bit pattern read as a `jint`. -/
def to_jint (x : Nat) : Int :=
  if x % 2 ^ 32 < 2 ^ 31 then ((x % 2 ^ 32 : Nat) : Int) else ((x % 2 ^ 32 : Nat) : Int) - 2 ^ 32

/-- The entry point `vulnerableToUpper`. The stack from the base of `buffer` upwards is
the 0x20 bytes of `buffer` followed by the bytes `adjacent`; these are taken to be plain
bytes (not the locals `bytes`, `length` and `i`). A write or read that leaves this
region, and a negative length handed to `NewByteArray`, end in `JResult.undef`. -/
def vulnerableToUpper (string : List Nat) (unknown : Int) (adjacent : List Nat) : JResult :=
  let frame0 := List.replicate 0x20 0 ++ adjacent
  if frame0.length < string.length then JResult.undef
  else
    let frame1 := perfect_memcpy frame0 string string.length
    let frame2 := (frame1.take 0x20).map toupper ++ frame1.drop 0x20
    match perfect_strlen frame2 with
    | none => JResult.undef
    | some n =>
      let length : Int :=
        if unknown ≤ 0x100 then to_jint (((n : Int) + unknown) % 2 ^ 32).toNat
        else to_jint n
      if length < 0 then JResult.undef
      else if frame2.length < length.toNat then JResult.undef
      else JResult.bytes (frame2.take length.toNat)

end EasyStackBufferOverflowModule

/-! ## The table lookup shared by three modules -/

/-- The four literals of `string_table`, as character codes:
`amazing_key`, `secret_key`, `topsecret_key`,
`a_very_very_long_key_with_fancy_features_:D`. -/
def string_table : List (List Nat) :=
  [ [0x61, 0x6d, 0x61, 0x7a, 0x69, 0x6e, 0x67, 0x5f, 0x6b, 0x65, 0x79],
    [0x73, 0x65, 0x63, 0x72, 0x65, 0x74, 0x5f, 0x6b, 0x65, 0x79],
    [0x74, 0x6f, 0x70, 0x73, 0x65, 0x63, 0x72, 0x65, 0x74, 0x5f, 0x6b, 0x65, 0x79],
    [0x61, 0x5f, 0x76, 0x65, 0x72, 0x79, 0x5f, 0x76, 0x65, 0x72, 0x79, 0x5f, 0x6c, 0x6f,
     0x6e, 0x67, 0x5f, 0x6b, 0x65, 0x79, 0x5f, 0x77, 0x69, 0x74, 0x68, 0x5f, 0x66, 0x61,
     0x6e, 0x63, 0x79, 0x5f, 0x66, 0x65, 0x61, 0x74, 0x75, 0x72, 0x65, 0x73, 0x5f, 0x3a,
     0x44] ]

/-- The bytes of the local array `char *string_table[4]`: the addresses of the four
literals, `lit i` being the address of literal `i`. -/
def string_table_bytes (lit : Nat → Nat) : List Nat :=
  le_bytes 8 (lit 0) ++ le_bytes 8 (lit 1) ++ le_bytes 8 (lit 2) ++ le_bytes 8 (lit 3)

/-- The body shared by `leak` and the two `lookupExamples`:
`length = strlen(string_table[index])`, then `length` bytes are copied from
`&string_table[index]`, the address of the table entry. `adjacent` is the stack
that follows the table. An index outside the table, and a read that leaves the
modelled stack, end in `JResult.undef`. -/
def table_lookup (lit : Nat → Nat) (adjacent : List Nat) (index : Int) : JResult :=
  if index < 0 ∨ 4 ≤ index then JResult.undef
  else
    let length := (string_table.getD index.toNat []).length
    let source := (string_table_bytes lit ++ adjacent).drop (8 * index.toNat)
    if source.length < length then JResult.undef
    else JResult.bytes (source.take length)

/-! ## The address space and the allocator interface -/

/-- The address space: the byte at each address. -/
abbrev Mem := Nat → Nat

/-- Write the bytes `bs` from address `a` on (addresses wrap at `2 ^ 64`). -/
def Mem.store (m : Mem) (a : Nat) (bs : List Nat) : Mem :=
  fun x =>
    match bs[(x + 2 ^ 64 - a % 2 ^ 64) % 2 ^ 64]? with
    | some b => b
    | none => m x

/-- Read `n` bytes from address `a` on. -/
def Mem.load (m : Mem) (a n : Nat) : List Nat :=
  (List.range n).map (fun i => m ((a + i) % 2 ^ 64))

/-- Read the 8-byte little-endian word at address `a`. -/
def Mem.load64 (m : Mem) (a : Nat) : Nat := le_value (m.load a 8)

/-- What a module does to the heap and through pointers, in program order. -/
inductive Event where
  | malloc (size result : Nat)
  | free (ptr : Nat)
  | memcpy (dst : Nat) (src : List Nat)
  | store64 (addr value : Nat)
  | call (addr : Nat)
  deriving DecidableEq, Repr

/-- The libc allocator, a parameter of the embedding: `malloc` and `free` act on the
allocator state and may write the address space (chunk headers). Every request is
taken to be served: the result of `malloc` is the address of a chunk. -/
structure Allocator (σ : Type) where
  malloc : σ → Mem → Nat → Nat × σ × Mem
  free : σ → Mem → Nat → σ × Mem

/-- The process image a module runs in: allocator state, address space, and the
events so far. -/
structure World (σ : Type) where
  heap : σ
  mem : Mem
  trace : List Event

namespace World

variable {σ : Type}

/-- The call `malloc(size)`. -/
def malloc (A : Allocator σ) (w : World σ) (size : Nat) : Nat × World σ :=
  let r := A.malloc w.heap w.mem size
  (r.1, { heap := r.2.1, mem := r.2.2, trace := w.trace ++ [Event.malloc size r.1] })

/-- The call `calloc(1, size)`: `malloc` followed by zero-filling the chunk. -/
def calloc (A : Allocator σ) (w : World σ) (size : Nat) : Nat × World σ :=
  let r := A.malloc w.heap w.mem size
  (r.1, { heap := r.2.1, mem := r.2.2.store r.1 (List.replicate size 0),
          trace := w.trace ++ [Event.malloc size r.1] })

/-- The call `free(ptr)`. -/
def free (A : Allocator σ) (w : World σ) (ptr : Nat) : World σ :=
  let r := A.free w.heap w.mem ptr
  { heap := r.1, mem := r.2, trace := w.trace ++ [Event.free ptr] }

/-- The call `memcpy(dst, src, |src|)`. -/
def memcpy (w : World σ) (dst : Nat) (src : List Nat) : World σ :=
  { w with mem := w.mem.store dst src, trace := w.trace ++ [Event.memcpy dst src] }

/-- An 8-byte store `*(uint64_t*)addr = value`. -/
def store64 (w : World σ) (addr value : Nat) : World σ :=
  { w with mem := w.mem.store addr (le_bytes 8 value),
           trace := w.trace ++ [Event.store64 (addr % 2 ^ 64) (value % 2 ^ 64)] }

end World

/-- Modelled from the spec: the pinned allocator the spec asks tests to run against, a
bump allocator with a free list that hands the most recently freed chunk of the
requested size to the next request of that size and does not detect double frees.
`chunks` records the size of every chunk ever handed out (address, size),
`free_list` the freed addresses, most recent first, and `brk` the next fresh address. -/
structure Pinned where
  chunks : List (Nat × Nat)
  free_list : List Nat
  brk : Nat
  deriving Repr

namespace Pinned

/-- The recorded size of the chunk at `p`. -/
def size_of (s : Pinned) (p : Nat) : Option Nat :=
  (s.chunks.find? (fun c => c.1 = p)).map (·.2)

/-- Modelled from the spec: `malloc` of the pinned allocator. The most recently freed
chunk of exactly the requested size is reused; otherwise a fresh 16-byte aligned chunk
is cut at `brk`. -/
def malloc (s : Pinned) (size : Nat) : Nat × Pinned :=
  match s.free_list.find? (fun p => s.size_of p = some size) with
  | some p => (p, { s with free_list := s.free_list.erase p })
  | none =>
    (s.brk, { s with chunks := (s.brk, size) :: s.chunks,
                     brk := s.brk + (size + 15) / 16 * 16 + 16 })

/-- Modelled from the spec: `free` of the pinned allocator. A chunk base is pushed on
the free list, also when it is on the list already; any other pointer is ignored. -/
def free (s : Pinned) (p : Nat) : Pinned :=
  match s.size_of p with
  | some _ => { s with free_list := p :: s.free_list }
  | none => s

/-- A fresh pinned allocator whose first chunk is cut at `base`. -/
def init (base : Nat) : Pinned := { chunks := [], free_list := [], brk := base }

/-- The pinned allocator as an `Allocator`; it keeps its bookkeeping outside the
address space. -/
def allocator : Allocator Pinned where
  malloc := fun s m size => ((s.malloc size).1, (s.malloc size).2, m)
  free := fun s m p => (s.free p, m)

end Pinned

/-! ## DoubleFreeModule.c -/

namespace DoubleFreeModule

/-- Layout of `struct ref`: one pointer. -/
def ref_layout : List Nat × Nat := struct_layout [(8, 8)]

/-- The value of `sizeof(struct ref)`. -/
def sizeof_ref : Nat := ref_layout.2

/-- The entry point `leak`. -/
def leak (lit : Nat → Nat) (adjacent : List Nat) (index : Int) : JResult :=
  table_lookup lit adjacent index

/-- The conversion `(uint64_t)*(raw_input + 8)` of a `char`: sign-extended where `char`
is signed, zero-extended where it is unsigned. -/
def char_to_u64 (char_signed : Bool) (b : Nat) : Nat :=
  if char_signed && decide (0x80 ≤ b % 256) then b % 256 + (2 ^ 64 - 256) else b % 256

/-- The entry point `vulnerable` (it returns `void`). The result is `none` when the
input is unreadable or shorter than the 9 bytes the code reads. -/
def vulnerable {σ : Type} (A : Allocator σ) (char_signed : Bool) (w : World σ)
    (input : Option (List Nat)) : Option (World σ) :=
  let (first, w) := w.calloc A sizeof_ref
  let (second, w) := w.calloc A sizeof_ref
  let (_, w) := w.calloc A sizeof_ref
  let w := w.free A first
  let w := w.free A second
  let w := w.free A first
  let (first, w) := w.calloc A sizeof_ref
  let (second, w) := w.calloc A sizeof_ref
  let (third, w) := w.calloc A sizeof_ref
  match input with
  | none => none
  | some raw_input =>
    if raw_input.length < 9 then none
    else
      let w := w.memcpy third (raw_input.take 8)
      let w := w.store64 (w.mem.load64 first) (char_to_u64 char_signed (raw_input.getD 8 0))
      let w := w.free A first
      let w := w.free A second
      some w

end DoubleFreeModule

/-! ## UseAfterFreeWriteModule.c -/

namespace UseAfterFreeWriteModule

/-- Layout of `struct object`: `char key[256]` and `uint64_t value`. -/
def object_layout : List Nat × Nat := struct_layout [(256, 1), (8, 8)]

/-- Layout of `struct manager`: `uint64_t *values[32]` and `uint64_t id`. -/
def manager_layout : List Nat × Nat := struct_layout [(32 * 8, 8), (8, 8)]

/-- The value of `sizeof(struct object)`. -/
def sizeof_object : Nat := object_layout.2

/-- The value of `sizeof(struct manager)`. -/
def sizeof_manager : Nat := manager_layout.2

/-- Offset of `key` in `struct object`. -/
def offsetof_key : Nat := object_layout.1.getD 0 0

/-- Offset of `value` in `struct object`. -/
def offsetof_value : Nat := object_layout.1.getD 1 0

/-- Offset of `values` (so of `values[0]`) in `struct manager`. -/
def offsetof_values : Nat := manager_layout.1.getD 0 0

/-- The entry point `lookupExamples`. -/
def lookupExamples (lit : Nat → Nat) (adjacent : List Nat) (index : Int) : JResult :=
  table_lookup lit adjacent index

/-- The entry point `storePair` (it returns `void`). The result is `none` when the key
is unreadable. `value` is a `jlong`, stored as its 64-bit pattern. -/
def storePair {σ : Type} (A : Allocator σ) (w : World σ) (key : Option (List Nat))
    (value : Int) : Option (World σ) :=
  let (m, w) := w.malloc A sizeof_manager
  let w := w.free A m
  let (obj, w) := w.malloc A sizeof_object
  match key with
  | none => none
  | some key_raw =>
    let length := if key_raw.length > 256 then 256 else key_raw.length
    let w := w.memcpy (obj + offsetof_key) (key_raw.take length)
    let w := w.store64 (w.mem.load64 (m + offsetof_values)) (value % 2 ^ 64).toNat
    let w := w.free A obj
    some w

end UseAfterFreeWriteModule

/-! ## UseAfterFreeExecModule.c -/

namespace UseAfterFreeExecModule

/-- Layout of `struct object`: `char key[256]` and `uint64_t value`. -/
def object_layout : List Nat × Nat := struct_layout [(256, 1), (8, 8)]

/-- Layout of `struct manager`: `char *values[32]` and the function pointer
`make_printable`. -/
def manager_layout : List Nat × Nat := struct_layout [(32 * 8, 8), (8, 8)]

/-- The value of `sizeof(struct object)`. -/
def sizeof_object : Nat := object_layout.2

/-- The value of `sizeof(struct manager)`. -/
def sizeof_manager : Nat := manager_layout.2

/-- Offset of `key` in `struct object`. -/
def offsetof_key : Nat := object_layout.1.getD 0 0

/-- Offset of `value` in `struct object`. -/
def offsetof_value : Nat := object_layout.1.getD 1 0

/-- Offset of `make_printable` in `struct manager`. -/
def offsetof_make_printable : Nat := manager_layout.1.getD 1 0

/-- The code the module can reach: the address of the static function
`make_printable`, the address of the literal it returns, and what a call to any other
address returns (`none` when it does not return). -/
structure Image where
  make_printable : Nat
  todo_literal : Nat
  exec : Nat → Option Nat

/-- The entry point `lookupExamples`. -/
def lookupExamples (lit : Nat → Nat) (adjacent : List Nat) (index : Int) : JResult :=
  table_lookup lit adjacent index

/-- An indirect call through a function pointer holding `fn`. -/
def call {σ : Type} (img : Image) (w : World σ) (fn : Nat) : Option Nat × World σ :=
  (if fn = img.make_printable then some img.todo_literal else img.exec fn,
    { w with trace := w.trace ++ [Event.call fn] })

/-- The entry point `storePair`. The output is the C string at `&result`, the bytes of
the returned word up to its first zero byte; the result is `undef` when the key is
unreadable, the call does not return, or the word has no zero byte. -/
def storePair {σ : Type} (A : Allocator σ) (img : Image) (w : World σ)
    (key : Option (List Nat)) (value : Int) : World σ × JResult :=
  let (m, w) := w.malloc A sizeof_manager
  let w := w.store64 (m + offsetof_make_printable) img.make_printable
  let w := w.free A m
  let (obj, w) := w.calloc A sizeof_object
  match key with
  | none => (w, JResult.undef)
  | some key_raw =>
    let length := if key_raw.length > 256 then 256 else key_raw.length
    let w := w.memcpy (obj + offsetof_key) (key_raw.take length)
    let w := w.store64 (obj + offsetof_value) (value % 2 ^ 64).toNat
    let (r, w) := call img w (w.mem.load64 (m + offsetof_make_printable))
    match r with
    | none => (w, JResult.undef)
    | some result =>
      match c_strlen (le_bytes 8 result) with
      | none => (w, JResult.undef)
      | some output_length =>
        let w := w.free A obj
        (w, JResult.bytes ((le_bytes 8 result).take output_length))

end UseAfterFreeExecModule

/-! ## HeapSCAModule.c -/

namespace HeapSCAModule

/-- The macro `NS_PER_SECOND`. -/
def NS_PER_SECOND : Int := 1000000000

/-- A `struct timespec` reading: `tv_sec` and `tv_nsec`. -/
structure Timespec where
  tv_sec : Int
  tv_nsec : Int

/-- The `uint64_t elapsed` computed from the two clock readings. -/
def elapsed (before after : Timespec) : Nat :=
  (((after.tv_sec * NS_PER_SECOND + after.tv_nsec)
    - (before.tv_sec * NS_PER_SECOND + before.tv_nsec)) % 2 ^ 64).toNat

/-- The entry point `handleMessage`. `before` and `after` are the two readings of the
thread clock. The result is `undef` when opcode 0 or 1 reads its 8-byte operand past
the end of the message. -/
def handleMessage {σ : Type} (A : Allocator σ) (w : World σ) (before after : Timespec)
    (message : Option (List Nat)) : World σ × JResult :=
  match message with
  | none => (w, JResult.null)
  | some [] => (w, JResult.null)
  | some (op :: operand) =>
    let result := List.replicate 16 0
    if op = 0 then
      if operand.length < 8 then (w, JResult.undef)
      else
        let size := le_value (operand.take 8)
        let (ptr, w) := w.malloc A size
        let result := blit result 0 (le_bytes 8 ptr)
        let result := blit result 8 (le_bytes 8 (elapsed before after))
        (w, JResult.bytes result)
    else if op = 1 then
      if operand.length < 8 then (w, JResult.undef)
      else
        let ptr := le_value (operand.take 8)
        let w := w.free A ptr
        let result := blit result 0 (le_bytes 8 ptr)
        let result := blit result 8 (le_bytes 8 (elapsed before after))
        (w, JResult.bytes result)
    else (w, JResult.bytes result)

end HeapSCAModule

/-! ## The two-phase modules -/

/-- The statics of `PoCMemoryProbingModule.c` and `PoCPrimaryPoisoning.c`:
the `uint8_t called` and the pointer `buffer`. -/
structure PhaseState where
  called : Nat
  buffer : Nat
  deriving DecidableEq, Repr

/-- The statics before the first call: `called = 0`, `buffer = NULL`. -/
def PhaseState.init : PhaseState := { called := 0, buffer := 0 }

namespace PoCMemoryProbing

/-- The macro `BUFFER_SIZE`. -/
def BUFFER_SIZE : Nat := 0x20

/-- The entry point `storeInChunk`. With the flag set and an unreadable input the C
function ends without a `return`. -/
def storeInChunk {σ : Type} (A : Allocator σ) (st : PhaseState) (w : World σ)
    (data : Option (List Nat)) : PhaseState × World σ × JResult :=
  if st.called = 0 then
    let (p, w) := w.malloc A BUFFER_SIZE
    ({ called := (st.called + 1) % 256, buffer := p }, w, JResult.bytes (le_bytes 8 p))
  else
    match data with
    | none => (st, w, JResult.undef)
    | some raw =>
      let length := raw.length
      let w := w.memcpy st.buffer (raw.take (if length ≤ BUFFER_SIZE then length else BUFFER_SIZE))
      let w := w.free A ((st.buffer + 0x10) % 2 ^ 64)
      let (new, w) := w.malloc A 0x10
      let output := w.mem.load new 0x10
      let w := w.free A st.buffer
      ({ st with called := 0 }, w, JResult.bytes output)

/-- A sequence of calls to `storeInChunk`, one input per call, threading the statics
and the process image. -/
def run {σ : Type} (A : Allocator σ) :
    PhaseState → World σ → List (Option (List Nat)) → PhaseState × World σ
  | st, w, [] => (st, w)
  | st, w, data :: rest =>
    run A (storeInChunk A st w data).1 (storeInChunk A st w data).2.1 rest

end PoCMemoryProbing

namespace PoCPrimaryPoisoning

/-- The macro `BUFFER_SIZE`. -/
def BUFFER_SIZE : Nat := 0x20

/-- The entry point `free` of `PoCPrimaryPoisoning`. -/
def free {σ : Type} (A : Allocator σ) (st : PhaseState) (w : World σ)
    (chunk : Option (List Nat)) : PhaseState × World σ × JResult :=
  if st.called = 0 then
    let (p, w) := w.malloc A BUFFER_SIZE
    ({ called := (st.called + 1) % 256, buffer := p }, w, JResult.bytes (le_bytes 8 p))
  else
    match chunk with
    | none => (st, w, JResult.null)
    | some raw =>
      let length := raw.length
      let w := w.memcpy st.buffer (raw.take (if length ≤ BUFFER_SIZE then length else BUFFER_SIZE))
      let w := w.free A ((st.buffer + 0x10) % 2 ^ 64)
      let (new, w) := w.malloc A 0x10
      let output := w.mem.load new 0x10
      (st, w, JResult.bytes output)

/-- A sequence of calls to `free`, one input per call, threading the statics and the
process image. -/
def run {σ : Type} (A : Allocator σ) :
    PhaseState → World σ → List (Option (List Nat)) → PhaseState × World σ
  | st, w, [] => (st, w)
  | st, w, chunk :: rest => run A (free A st w chunk).1 (free A st w chunk).2.1 rest

end PoCPrimaryPoisoning

namespace SecondaryFakeModule

/-- The macro `BUFFER_SIZE`. -/
def BUFFER_SIZE : Nat := 0x100

/-- The entry point `free` of `SecondaryFakeModule`. Its only static is `called`;
`buffer` is a local array, at the stack address `sp` in this call, zeroed on entry.
In phase 2 an input shorter than 0x40 bytes makes `length - 0x40` wrap and the second
`memcpy` read past the input. -/
def free {σ : Type} (A : Allocator σ) (called : Nat) (w : World σ) (sp : Nat)
    (chunk : Option (List Nat)) : Nat × World σ × JResult :=
  let w := { w with mem := w.mem.store sp (List.replicate BUFFER_SIZE 0) }
  if called = 0 then
    ((called + 1) % 256, w, JResult.bytes (le_bytes 8 sp))
  else
    match chunk with
    | none => (called, w, JResult.null)
    | some raw =>
      let length := raw.length
      let w := w.memcpy sp (raw.take (if length ≤ BUFFER_SIZE then length else BUFFER_SIZE))
      let w := w.free A ((sp + 0x30 + 0x10) % 2 ^ 64)
      let rest := (length + 2 ^ 32 - 0x40) % 2 ^ 32
      let (write_trigger, w) := w.malloc A rest
      if raw.length < 0x40 + rest then (called, w, JResult.undef)
      else
        let w := w.memcpy write_trigger ((raw.drop 0x40).take rest)
        let w := w.free A write_trigger
        (called, w, JResult.null)

/-- A sequence of calls to `free`, each with the stack address of its frame and its
input, threading the static `called` and the process image. -/
def run {σ : Type} (A : Allocator σ) :
    Nat → World σ → List (Nat × Option (List Nat)) → Nat × World σ
  | called, w, [] => (called, w)
  | called, w, c :: rest =>
    run A (free A called w c.1 c.2).1 (free A called w c.1 c.2).2.1 rest

end SecondaryFakeModule

/-! ## Lemmas on bytes and regions -/

theorem le_bytes_length (n v : Nat) : (le_bytes n v).length = n := by
  induction n generalizing v with
  | zero => rfl
  | succ k ih => simp [le_bytes, ih]

theorem blit_length (dst : List Nat) (off : Nat) (src : List Nat)
    (h : off + src.length ≤ dst.length) : (blit dst off src).length = dst.length := by
  simp only [blit, List.length_append, List.length_take, List.length_drop]
  omega

/-! ## OffByOneModule: the record written by an append -/

namespace OffByOneModule

theorem sizeof_logged_data_eq : sizeof_logged_data = 264 := by decide

theorem offsetof_filter_eq : offsetof_filter = 256 := by decide

theorem copy_length_eq (n : Nat) : copy_length n = if n ≤ 0x101 then n else 0xFF := by
  unfold copy_length BUFFER_SIZE
  split_ifs <;> omega

theorem copy_length_le (n : Nat) : copy_length n ≤ n := by
  rw [copy_length_eq]; split_ifs <;> omega

/-- The record before the message is copied: zeroes, then the default filter. -/
theorem default_record_eq (f : Filters) :
    blit (List.replicate sizeof_logged_data 0) offsetof_filter
      (le_bytes 8 (f.entry DEFAULT_FILTER))
      = List.replicate 256 0 ++ le_bytes 8 f.default_filter := by
  have h : f.entry DEFAULT_FILTER = f.default_filter := by simp [Filters.entry, DEFAULT_FILTER]
  have h0 : List.replicate (264 - (256 + 8)) 0 = ([] : List Nat) := rfl
  have h1 : min 256 264 = 256 := by decide
  simp only [blit, sizeof_logged_data_eq, offsetof_filter_eq, h, le_bytes_length,
    List.take_replicate, List.drop_replicate, h0, h1, List.append_nil]

theorem default_record_length (f : Filters) :
    (List.replicate 256 0 ++ le_bytes 8 f.default_filter).length = 264 := by
  simp only [List.length_append, List.length_replicate, le_bytes_length]

theorem new_record_length (f : Filters) (raw : List Nat) :
    (new_record f raw).length = 264 := by
  have h1 := copy_length_le raw.length
  have h2 := copy_length_eq raw.length
  unfold new_record
  simp only []
  rw [default_record_eq, blit_length, default_record_length]
  rw [default_record_length]
  simp only [List.length_take]
  split_ifs at h2 <;> omega

/-- A message that stays inside the buffer: the record is the copied bytes, zero
padding up to the end of the buffer, and the default filter. -/
theorem new_record_short (f : Filters) (raw : List Nat)
    (h : copy_length raw.length ≤ 256) :
    new_record f raw = raw.take (copy_length raw.length)
      ++ (List.replicate (256 - copy_length raw.length) 0 ++ le_bytes 8 f.default_filter) := by
  have h1 := copy_length_le raw.length
  unfold new_record
  simp only []
  rw [default_record_eq]
  have hl : (raw.take (copy_length raw.length)).length = copy_length raw.length := by
    simp only [List.length_take]; omega
  simp only [blit, List.take_zero, List.nil_append, Nat.zero_add, hl]
  congr 1
  rw [List.drop_append_of_le_length (by simpa only [List.length_replicate] using h),
    List.drop_replicate]

/-- A message of 0x101 bytes: the whole message is copied and only bytes 1..7 of the
default filter remain behind it. -/
theorem new_record_long (f : Filters) (raw : List Nat) (h : raw.length = 0x101) :
    new_record f raw = raw ++ (le_bytes 8 f.default_filter).drop 1 := by
  have hc : copy_length raw.length = 0x101 := by rw [copy_length_eq, h]; rfl
  unfold new_record
  simp only []
  rw [default_record_eq, hc]
  have ht : raw.take 0x101 = raw := List.take_of_length_le (by omega)
  simp only [blit, List.take_zero, List.nil_append, Nat.zero_add, ht, h]
  congr 1

theorem last_record_logMessage (f : Filters) (st : State) (j raw : List Nat) :
    last_record (logMessage f st (some j) raw).1 = some (new_record f raw) := by
  have hr := new_record_length f raw
  simp only [logMessage, last_record, Option.map_some', Nat.add_sub_cancel, Option.some.injEq]
  have hb : (realloc_block st.g_logs j ((st.g_logs_size + 1) * sizeof_logged_data)).length
      = (st.g_logs_size + 1) * sizeof_logged_data := by
    simp only [realloc_block, List.length_take, List.length_append, List.length_replicate]
    omega
  rw [sizeof_logged_data_eq] at hb ⊢
  generalize realloc_block st.g_logs j ((st.g_logs_size + 1) * 264) = blk at hb
  have h1 : (blk.take (st.g_logs_size * 264)).length = st.g_logs_size * 264 := by
    simp only [List.length_take]; omega
  have h2 : blk.drop (st.g_logs_size * 264 + (new_record f raw).length) = [] := by
    apply List.drop_eq_nil_of_le; omega
  simp only [blit, h2, List.append_nil]
  rw [List.drop_append_of_le_length (by omega), List.drop_of_length_le (by omega)]
  simp only [List.nil_append]
  exact List.take_of_length_le (by omega)

theorem record_filter_default_record (f : Filters) :
    record_filter (List.replicate 256 0 ++ le_bytes 8 f.default_filter)
      = le_bytes 8 f.default_filter := by
  unfold record_filter
  rw [offsetof_filter_eq,
    List.drop_append_of_le_length (by simp only [List.length_replicate]; omega),
    List.drop_replicate]
  exact List.take_of_length_le
    (by simp only [List.length_append, List.length_replicate, le_bytes_length]; omega)

theorem record_filter_short (f : Filters) (raw : List Nat)
    (h : copy_length raw.length ≤ 256) :
    record_filter (new_record f raw) = le_bytes 8 f.default_filter := by
  have hle := copy_length_le raw.length
  have hlen : (raw.take (copy_length raw.length)).length = copy_length raw.length := by
    simp only [List.length_take]; omega
  rw [new_record_short f raw h, ← List.append_assoc]
  unfold record_filter
  rw [offsetof_filter_eq, List.drop_append_of_le_length
    (by simp only [List.length_append, List.length_replicate, hlen]; omega),
    List.drop_of_length_le
      (by simp only [List.length_append, List.length_replicate, hlen]; omega)]
  exact List.take_of_length_le (by simp only [List.nil_append, le_bytes_length]; omega)

theorem record_filter_long (f : Filters) (raw : List Nat) (h : raw.length = 0x101) :
    record_filter (new_record f raw)
      = raw.getD 0x100 0 :: (le_bytes 8 f.default_filter).drop 1 := by
  have h8 := le_bytes_length 8 f.default_filter
  rw [new_record_long f raw h]
  unfold record_filter
  rw [offsetof_filter_eq, List.drop_append_of_le_length (by omega)]
  have hd : (raw.drop 256).length = 1 := by simp only [List.length_drop]; omega
  have hg : raw.getD 0x100 0 = (raw.drop 256).getD 0 0 := by
    simp [List.getD_eq_getElem?_getD, List.getElem?_drop]
  rw [hg]
  match hm : raw.drop 256, hd with
  | [b], _ => simp [List.take_of_length_le, h8]

/-- C6: for every message (of length `n`) appended while `realloc` yields the block,
`logMessage` copies `n` bytes into the new record when `n <= 0x101` and `0xFF` bytes
otherwise; the copy never reaches more than one byte past the 0x100-byte message buffer,
so bytes 1..7 of the stored filter are those of the default filter, and a message of
`0xFF` bytes or fewer leaves the stored filter equal to the default filter. -/
theorem logMessage_overflow_at_most_one (f : Filters) (st : State) (j raw : List Nat) :
    ∃ copied r0,
      copied = raw.take (copy_length raw.length) ∧
      copied.length = (if raw.length ≤ 0x101 then raw.length else 0xFF) ∧
      copied.length ≤ BUFFER_SIZE + 1 ∧
      record_filter r0 = le_bytes 8 f.default_filter ∧
      last_record (logMessage f st (some j) raw).1 = some (blit r0 0 copied) ∧
      (record_filter (blit r0 0 copied)).drop 1 = (le_bytes 8 f.default_filter).drop 1 ∧
      (raw.length ≤ BUFFER_SIZE - 1 →
        record_filter (blit r0 0 copied) = le_bytes 8 f.default_filter) := by
  have hle := copy_length_le raw.length
  have heq := copy_length_eq raw.length
  have hlen : (raw.take (copy_length raw.length)).length = copy_length raw.length := by
    simp only [List.length_take]; omega
  have hrec : blit (List.replicate 256 0 ++ le_bytes 8 f.default_filter) 0
      (raw.take (copy_length raw.length)) = new_record f raw := by
    unfold new_record
    simp only []
    rw [default_record_eq]
  have hfd := record_filter_default_record f
  have hshort := record_filter_short f raw
  refine ⟨raw.take (copy_length raw.length), List.replicate 256 0 ++ le_bytes 8 f.default_filter,
    rfl, ?_, ?_, hfd, ?_, ?_, ?_⟩
  · rw [hlen, heq]
  · rw [hlen, heq]; unfold BUFFER_SIZE; split_ifs <;> omega
  · rw [hrec]; exact last_record_logMessage f st j raw
  · rw [hrec]
    by_cases h : copy_length raw.length ≤ 256
    · rw [hshort h]
    · have h257 : raw.length = 0x101 := by split_ifs at heq <;> omega
      rw [record_filter_long f raw h257]
      rfl
  · intro h
    rw [hrec]
    apply hshort
    unfold BUFFER_SIZE at h
    omega

/-- C6, at a concrete append: a message of `0xFF` bytes. -/
theorem logMessage_overflow_at_most_one_witness :
    (List.replicate 0xFF 0x41).length ≤ BUFFER_SIZE - 1 ∧
    ∃ copied r0,
      copied = (List.replicate 0xFF 0x41).take (copy_length (List.replicate 0xFF 0x41).length) ∧
      copied.length = (if (List.replicate 0xFF 0x41).length ≤ 0x101
        then (List.replicate 0xFF 0x41).length else 0xFF) ∧
      copied.length ≤ BUFFER_SIZE + 1 ∧
      record_filter r0 = le_bytes 8 0x7000 ∧
      last_record (logMessage ⟨0x7000, 0x7100⟩ State.init (some [])
        (List.replicate 0xFF 0x41)).1 = some (blit r0 0 copied) ∧
      (record_filter (blit r0 0 copied)).drop 1 = (le_bytes 8 0x7000).drop 1 ∧
      ((List.replicate 0xFF 0x41).length ≤ BUFFER_SIZE - 1 →
        record_filter (blit r0 0 copied) = le_bytes 8 0x7000) :=
  ⟨by rw [List.length_replicate]; decide,
    logMessage_overflow_at_most_one ⟨0x7000, 0x7100⟩ State.init []
    (List.replicate 0xFF 0x41)⟩

/-- C1, refuted as stated: a message of exactly `0x100` bytes (all `0x41`) is copied
whole, the copy ends where the field `filter` begins, and the stored filter is still
the default filter `0x7000`, low byte `0x00` included. -/
theorem logMessage_capacity_keeps_filter :
    copy_length (List.replicate 0x100 0x41).length = offsetof_filter ∧
    (last_record (logMessage ⟨0x7000, 0x7100⟩ State.init (some [])
      (List.replicate 0x100 0x41)).1).map record_filter
        = some [0x00, 0x70, 0, 0, 0, 0, 0, 0] := by
  refine ⟨by rw [List.length_replicate]; decide, ?_⟩
  rw [last_record_logMessage, Option.map_some',
    record_filter_short _ _ (by rw [List.length_replicate]; decide)]
  rfl

/-- C1, amended: a message of exactly `0x101` bytes is copied whole and its last byte
replaces the low byte of the stored filter, whose bytes 1..7 stay those of the default
filter; a message of exactly `0x100` bytes leaves the stored filter equal to the
default filter. -/
theorem logMessage_one_past_capacity (f : Filters) (st : State) (j raw : List Nat) :
    (raw.length = BUFFER_SIZE + 1 →
      copy_length raw.length = BUFFER_SIZE + 1 ∧
      (last_record (logMessage f st (some j) raw).1).map record_filter
        = some (raw.getD BUFFER_SIZE 0 :: (le_bytes 8 f.default_filter).drop 1)) ∧
    (raw.length = BUFFER_SIZE →
      copy_length raw.length = BUFFER_SIZE ∧
      (last_record (logMessage f st (some j) raw).1).map record_filter
        = some (le_bytes 8 f.default_filter)) := by
  unfold BUFFER_SIZE
  have h8 := le_bytes_length 8 f.default_filter
  constructor
  · intro h
    have hc : copy_length raw.length = 0x100 + 1 := by rw [copy_length_eq, h]; rfl
    refine ⟨hc, ?_⟩
    rw [last_record_logMessage, Option.map_some', record_filter_long f raw h]
  · intro h
    have hc : copy_length raw.length = 0x100 := by rw [copy_length_eq, h]; rfl
    refine ⟨hc, ?_⟩
    rw [last_record_logMessage, Option.map_some', record_filter_short f raw (by omega)]

/-- C1, amended, at a concrete append: 0x100 bytes `0x41` followed by the byte `0x42`. -/
theorem logMessage_one_past_capacity_witness :
    (List.replicate 0x100 0x41 ++ [0x42]).length = BUFFER_SIZE + 1 ∧
    (last_record (logMessage ⟨0x7000, 0x7100⟩ State.init (some [])
      (List.replicate 0x100 0x41 ++ [0x42])).1).map record_filter
        = some ((List.replicate 0x100 0x41 ++ [0x42]).getD BUFFER_SIZE 0
            :: (le_bytes 8 0x7000).drop 1) :=
  ⟨by simp only [List.length_append, List.length_replicate]; decide,
    ((logMessage_one_past_capacity ⟨0x7000, 0x7100⟩ State.init []
      (List.replicate 0x100 0x41 ++ [0x42])).1
        (by simp only [List.length_append, List.length_replicate]; decide)).2⟩

end OffByOneModule

/-! ## The table lookup: what index 1 returns -/

theorem table_lookup_one (lit : Nat → Nat) (adjacent : List Nat) :
    table_lookup lit adjacent 1
      = JResult.bytes (le_bytes 8 (lit 1) ++ (le_bytes 8 (lit 2)).take 2) := by
  simp [table_lookup, string_table, string_table_bytes, le_bytes]

/-- C2, refuted as stated: with the four literals at `0x1000`, `0x1010`, `0x1020` and
`0x1030`, index 1 makes each of the three entry points return the bytes of the
address `0x1010` and the two low bytes of `0x1020`, which are not the characters of
`secret_key`. -/
theorem table_lookup_returns_address_bytes :
    DoubleFreeModule.leak (fun i => 0x1000 + 16 * i) [] 1
      = JResult.bytes [0x10, 0x10, 0, 0, 0, 0, 0, 0, 0x20, 0x10] ∧
    UseAfterFreeExecModule.lookupExamples (fun i => 0x1000 + 16 * i) [] 1
      = JResult.bytes [0x10, 0x10, 0, 0, 0, 0, 0, 0, 0x20, 0x10] ∧
    UseAfterFreeWriteModule.lookupExamples (fun i => 0x1000 + 16 * i) [] 1
      = JResult.bytes [0x10, 0x10, 0, 0, 0, 0, 0, 0, 0x20, 0x10] ∧
    JResult.bytes [0x10, 0x10, 0, 0, 0, 0, 0, 0, 0x20, 0x10]
      ≠ JResult.bytes (string_table.getD 1 []) := by
  refine ⟨?_, ?_, ?_, by decide⟩
  · unfold DoubleFreeModule.leak; rw [table_lookup_one]; rfl
  · unfold UseAfterFreeExecModule.lookupExamples; rw [table_lookup_one]; rfl
  · unfold UseAfterFreeWriteModule.lookupExamples; rw [table_lookup_one]; rfl

/-- C2, amended: for index 1 each of the three table-lookup entry points returns
exactly 10 bytes, and they are the 8 bytes of the address of the literal `secret_key`
followed by the 2 low bytes of the address of the next literal, `topsecret_key`. -/
theorem table_lookup_index_one (lit : Nat → Nat) (adjacent : List Nat) :
    DoubleFreeModule.leak lit adjacent 1
      = JResult.bytes (le_bytes 8 (lit 1) ++ (le_bytes 8 (lit 2)).take 2) ∧
    UseAfterFreeExecModule.lookupExamples lit adjacent 1
      = JResult.bytes (le_bytes 8 (lit 1) ++ (le_bytes 8 (lit 2)).take 2) ∧
    UseAfterFreeWriteModule.lookupExamples lit adjacent 1
      = JResult.bytes (le_bytes 8 (lit 1) ++ (le_bytes 8 (lit 2)).take 2) ∧
    (le_bytes 8 (lit 1) ++ (le_bytes 8 (lit 2)).take 2).length = 10 := by
  refine ⟨table_lookup_one lit adjacent, table_lookup_one lit adjacent,
    table_lookup_one lit adjacent, ?_⟩
  simp [le_bytes]

/-! ## EasyStackBufferOverflowModule: inputs that fit the buffer -/

namespace EasyStackBufferOverflowModule

theorem toupper_eq_zero (c : Nat) : toupper c = 0 ↔ c = 0 := by
  unfold toupper
  split_ifs <;> omega

theorem c_strlen_append_zero (xs ys : List Nat) (h : ∀ x ∈ xs, x ≠ 0) :
    c_strlen (xs ++ 0 :: ys) = some xs.length := by
  induction xs with
  | nil => simp [c_strlen]
  | cons x xs ih =>
    have hx : x ≠ 0 := h x (List.mem_cons_self x xs)
    have ih1 := ih (fun y hy => h y (List.mem_cons_of_mem x hy))
    simp [c_strlen, hx, ih1]

/-- The stack after the copy and the upper-casing, for an input that fits the buffer:
the upper-cased buffer followed by the untouched adjacent bytes. -/
theorem frame_after_upper (string adjacent : List Nat) (h : string.length ≤ 0x20) :
    ((perfect_memcpy (List.replicate 0x20 0 ++ adjacent) string string.length).take 0x20).map
        toupper
      ++ (perfect_memcpy (List.replicate 0x20 0 ++ adjacent) string string.length).drop 0x20
    = (perfect_memcpy (List.replicate 0x20 0) string string.length).map toupper
      ++ adjacent := by
  have ht : string.take string.length = string := List.take_of_length_le (le_refl _)
  have h1 : perfect_memcpy (List.replicate 0x20 0 ++ adjacent) string string.length
      = (string ++ List.replicate (0x20 - string.length) 0) ++ adjacent := by
    simp only [perfect_memcpy, blit, ht, List.take_zero, List.nil_append, Nat.zero_add]
    rw [List.drop_append_of_le_length (by simpa only [List.length_replicate] using h),
      List.drop_replicate, List.append_assoc]
  have h2 : perfect_memcpy (List.replicate 0x20 0) string string.length
      = string ++ List.replicate (0x20 - string.length) 0 := by
    simp only [perfect_memcpy, blit, ht, List.take_zero, List.nil_append, Nat.zero_add]
    rw [List.drop_replicate]
  have hl : (string ++ List.replicate (0x20 - string.length) 0).length = 0x20 := by
    simp only [List.length_append, List.length_replicate]; omega
  rw [h1, h2, List.take_append_of_le_length (by omega), List.take_of_length_le (by omega),
    List.drop_append_of_le_length (by omega), List.drop_of_length_le (by omega),
    List.nil_append]

/-- What `vulnerableToUpper` computes once the upper-cased buffer is known to hold
`pre`, free of zero bytes, followed by a zero byte. -/
theorem vulnerableToUpper_of_zero (string adjacent : List Nat) (unknown : Int)
    (pre rest : List Nat) (h : string.length ≤ 0x20)
    (hb : (perfect_memcpy (List.replicate 0x20 0) string string.length).map toupper
      = pre ++ 0 :: rest)
    (hpre : ∀ x ∈ pre, x ≠ 0) :
    vulnerableToUpper string unknown adjacent =
      (if (if unknown ≤ 0x100 then to_jint (((pre.length : Int) + unknown) % 2 ^ 32).toNat
            else to_jint pre.length) < 0 then JResult.undef
       else if (pre ++ 0 :: rest ++ adjacent).length
            < (if unknown ≤ 0x100 then to_jint (((pre.length : Int) + unknown) % 2 ^ 32).toNat
                else to_jint pre.length).toNat then JResult.undef
       else JResult.bytes ((pre ++ 0 :: rest ++ adjacent).take
          (if unknown ≤ 0x100 then to_jint (((pre.length : Int) + unknown) % 2 ^ 32).toNat
            else to_jint pre.length).toNat)) := by
  have hlen : (perfect_memcpy (List.replicate 0x20 0) string string.length).length = 0x20 := by
    unfold perfect_memcpy
    rw [blit_length]
    · simp only [List.length_replicate]
    · simp only [List.length_take, List.length_replicate]; omega
  have hpl : pre.length < 0x20 := by
    have := congrArg List.length hb
    simp only [List.length_map, hlen, List.length_append, List.length_cons] at this
    omega
  have hfr := frame_after_upper string adjacent h
  unfold vulnerableToUpper
  simp only []
  rw [if_neg (by simp only [List.length_append, List.length_replicate]; omega), hfr, hb]
  have hs : perfect_strlen (pre ++ 0 :: rest ++ adjacent) = some pre.length := by
    unfold perfect_strlen
    rw [List.append_assoc, List.cons_append, c_strlen_append_zero _ _ hpre]
    simp only [Option.map_some', Option.some.injEq]
    omega
  rw [hs]

theorem takeWhile_nonzero (l : List Nat) : ∀ x ∈ l.takeWhile (· ≠ 0), x ≠ 0 := by
  intro x hx
  have := List.mem_takeWhile_imp hx
  simpa using this

theorem split_at_zero (l : List Nat) (h : 0 ∈ l) :
    ∃ r, l = l.takeWhile (· ≠ 0) ++ 0 :: r := by
  induction l with
  | nil => simp at h
  | cons x xs ih =>
    by_cases hx : x = 0
    · subst hx
      exact ⟨xs, by simp⟩
    · have hm : 0 ∈ xs := by
        rcases List.mem_cons.mp h with h0 | h0
        · exact absurd h0.symm hx
        · exact h0
      obtain ⟨r, hr⟩ := ih hm
      refine ⟨r, ?_⟩
      rw [List.takeWhile_cons_of_pos (by simpa using hx), List.cons_append, ← hr]

theorem takeWhile_map_toupper (l : List Nat) :
    (l.map toupper).takeWhile (· ≠ 0) = (l.takeWhile (· ≠ 0)).map toupper := by
  induction l with
  | nil => rfl
  | cons x xs ih =>
    by_cases hx : x = 0
    · subst hx
      simp [toupper]
    · have hu : toupper x ≠ 0 := fun h0 => hx ((toupper_eq_zero x).mp h0)
      rw [List.map_cons, List.takeWhile_cons_of_pos (by simpa using hu),
        List.takeWhile_cons_of_pos (by simpa using hx), List.map_cons, ih]

theorem takeWhile_append_zero (xs ys : List Nat) (h : ∀ x ∈ xs, x ≠ 0) :
    (xs ++ 0 :: ys).takeWhile (· ≠ 0) = xs := by
  induction xs with
  | nil => simp
  | cons x xs ih =>
    have hx : x ≠ 0 := h x (List.mem_cons_self x xs)
    rw [List.cons_append, List.takeWhile_cons_of_pos (by simpa using hx),
      ih (fun y hy => h y (List.mem_cons_of_mem x hy))]

/-- The buffer after the copy, for an input that fits. -/
theorem buffer_after_copy (string : List Nat) :
    perfect_memcpy (List.replicate 0x20 0) string string.length
      = string ++ List.replicate (0x20 - string.length) 0 := by
  have ht : string.take string.length = string := List.take_of_length_le (le_refl _)
  simp only [perfect_memcpy, blit, ht, List.take_zero, List.nil_append, Nat.zero_add]
  rw [List.drop_replicate]

set_option maxRecDepth 100000 in
/-- C3, refuted as stated: an input of exactly 0x20 bytes `a` has no zero byte, so the
scan for the end of the string runs on into the stack behind the buffer; with the
bytes `0x42, 0x00` there, the result is the 0x20 upper-cased bytes followed by `0x42`,
not the upper-cased input. -/
theorem vulnerableToUpper_full_buffer_overreads :
    (List.replicate 0x20 0x61).length ≤ 0x20 ∧
    vulnerableToUpper (List.replicate 0x20 0x61) 0 [0x42, 0]
      = JResult.bytes (List.replicate 0x20 0x41 ++ [0x42]) ∧
    JResult.bytes (List.replicate 0x20 0x41 ++ [0x42])
      ≠ JResult.bytes (((List.replicate 0x20 0x61).takeWhile (· ≠ 0)).map toupper) := by
  decide

/-- C3, amended: for every input shorter than the 0x20-byte buffer, and for every input
of exactly 0x20 bytes that contains a zero byte, with the scalar set to 0,
`vulnerableToUpper` returns exactly the upper-cased input bytes up to, and not
including, the first zero byte of the input (the whole upper-cased input when it has
none). -/
theorem vulnerableToUpper_case_fold (string adjacent : List Nat)
    (h : string.length ≤ 0x20) (hz : string.length < 0x20 ∨ 0 ∈ string) :
    vulnerableToUpper string 0 adjacent
      = JResult.bytes ((string.takeWhile (· ≠ 0)).map toupper) := by
  have hmem : 0 ∈ string ++ List.replicate (0x20 - string.length) 0 := by
    rcases hz with hlt | hin
    · refine List.mem_append_right _ (List.mem_replicate.mpr ⟨by omega, rfl⟩)
    · exact List.mem_append_left _ hin
  have hmem2 : 0 ∈ (string ++ List.replicate (0x20 - string.length) 0).map toupper :=
    List.mem_map.mpr ⟨0, hmem, by simp [toupper]⟩
  obtain ⟨rest, hrest⟩ := split_at_zero _ hmem2
  have hpre := takeWhile_nonzero ((string ++ List.replicate (0x20 - string.length) 0).map toupper)
  have hb := buffer_after_copy string
  have hbuf : (perfect_memcpy (List.replicate 0x20 0) string string.length).map toupper
      = ((string ++ List.replicate (0x20 - string.length) 0).map toupper).takeWhile (· ≠ 0)
        ++ 0 :: rest := by
    rw [hb]; exact hrest
  have hlen : (string ++ List.replicate (0x20 - string.length) 0).length = 0x20 := by
    simp only [List.length_append, List.length_replicate]; omega
  have hpl : (((string ++ List.replicate (0x20 - string.length) 0).map toupper).takeWhile
      (· ≠ 0)).length < 0x20 := by
    have := congrArg List.length hrest
    simp only [List.length_map, hlen, List.length_append, List.length_cons] at this
    omega
  -- the zero-free part of the buffer is the zero-free part of the input
  have hsame : ((string ++ List.replicate (0x20 - string.length) 0).map toupper).takeWhile
      (· ≠ 0) = (string.takeWhile (· ≠ 0)).map toupper := by
    rw [takeWhile_map_toupper]
    congr 1
    by_cases hin : 0 ∈ string
    · obtain ⟨r, hr⟩ := split_at_zero string hin
      conv_lhs => rw [hr, List.append_assoc, List.cons_append]
      exact takeWhile_append_zero _ _ (takeWhile_nonzero string)
    · have hlt : string.length < 0x20 := by
        rcases hz with hlt | hin2
        · exact hlt
        · exact absurd hin2 hin
      have hall : ∀ x ∈ string, x ≠ 0 := fun x hx h0 => hin (h0 ▸ hx)
      have hrep : List.replicate (0x20 - string.length) 0
          = 0 :: List.replicate (0x20 - string.length - 1) 0 := by
        have : 0x20 - string.length = (0x20 - string.length - 1) + 1 := by omega
        conv_lhs => rw [this, List.replicate_succ]
      rw [hrep, takeWhile_append_zero _ _ hall]
      exact (List.takeWhile_eq_self_iff.mpr (by simpa using hall)).symm
  rw [vulnerableToUpper_of_zero string adjacent 0 _ rest h hbuf hpre]
  rw [hsame] at hpl ⊢
  generalize (string.takeWhile (· ≠ 0)).map toupper = pre at hpl
  have hj : to_jint (((pre.length : Int) + 0) % 2 ^ 32).toNat = (pre.length : Int) := by
    unfold to_jint
    have e : (((pre.length : Int) + 0) % 2 ^ 32).toNat = pre.length := by omega
    rw [e]
    have e2 : pre.length % 2 ^ 32 = pre.length := by omega
    rw [e2, if_pos (by omega)]
  simp only [show (0 : Int) ≤ 0x100 by decide, if_true, hj, Int.toNat_ofNat]
  rw [if_neg (by omega), if_neg (by simp only [List.length_append]; omega),
    List.append_assoc, List.take_left']
  rfl

/-- C3, amended, at a concrete input: `ab`, a zero byte, `c`. -/
theorem vulnerableToUpper_case_fold_witness :
    vulnerableToUpper [0x61, 0x62, 0, 0x63] 0 [0x11, 0x22] = JResult.bytes [0x41, 0x42] :=
  vulnerableToUpper_case_fold [0x61, 0x62, 0, 0x63] [0x11, 0x22] (by decide)
    (Or.inl (by decide))

/-- C7, refuted as stated: for the empty input and the scalar `-1` the content length
is 0 and the scalar is within the bound, so the computed length is `0 + (-1) = -1`;
no byte sequence has that length, and the call does not return one. -/
theorem vulnerableToUpper_negative_length :
    ([] : List Nat).length < 0x20 ∧ (-1 : Int) ≤ 0x100 ∧
    (((perfect_memcpy (List.replicate 0x20 0) [] 0).map toupper).takeWhile
      (· ≠ 0)).length = 0 ∧
    vulnerableToUpper [] (-1) [] = JResult.undef ∧
    vulnerableToUpper [] (-1) [0x41, 0x42, 0x43] = JResult.undef := by
  decide

/-- C7, amended: for every input shorter than the 0x20-byte buffer, with `n` the number
of bytes of the upper-cased buffer before its first zero byte: when the scalar `s` is
within the bound (`s <= 0x100`), `n + s` is not negative and the `n + s` bytes lie in
the stack the embedding covers (the buffer and the bytes adjacent to it), the returned
byte sequence has length `n + s`; when `s > 0x100` it has length `n`. -/
theorem vulnerableToUpper_length (string adjacent : List Nat) (unknown : Int)
    (h : string.length < 0x20) :
    (unknown ≤ 0x100 →
      0 ≤ ((((perfect_memcpy (List.replicate 0x20 0) string string.length).map
        toupper).takeWhile (· ≠ 0)).length : Int) + unknown →
      ((((perfect_memcpy (List.replicate 0x20 0) string string.length).map
        toupper).takeWhile (· ≠ 0)).length : Int) + unknown ≤ 0x20 + adjacent.length →
      ∃ out, vulnerableToUpper string unknown adjacent = JResult.bytes out ∧
        (out.length : Int) = ((((perfect_memcpy (List.replicate 0x20 0) string
          string.length).map toupper).takeWhile (· ≠ 0)).length : Int) + unknown) ∧
    (0x100 < unknown →
      ∃ out, vulnerableToUpper string unknown adjacent = JResult.bytes out ∧
        out.length = (((perfect_memcpy (List.replicate 0x20 0) string
          string.length).map toupper).takeWhile (· ≠ 0)).length) := by
  have hb := buffer_after_copy string
  have hmem : 0 ∈ (perfect_memcpy (List.replicate 0x20 0) string string.length).map toupper := by
    rw [hb]
    exact List.mem_map.mpr ⟨0, List.mem_append_right _
      (List.mem_replicate.mpr ⟨by omega, rfl⟩), by simp [toupper]⟩
  obtain ⟨rest, hrest⟩ := split_at_zero _ hmem
  have hpre := takeWhile_nonzero
    ((perfect_memcpy (List.replicate 0x20 0) string string.length).map toupper)
  have hlen : ((perfect_memcpy (List.replicate 0x20 0) string string.length).map
      toupper).length = 0x20 := by
    rw [hb]; simp only [List.length_map, List.length_append, List.length_replicate]; omega
  have hev := vulnerableToUpper_of_zero string adjacent unknown _ rest (by omega) hrest hpre
  have hl2 := congrArg List.length hrest
  rw [hlen, List.length_append, List.length_cons] at hl2
  generalize ((perfect_memcpy (List.replicate 0x20 0) string string.length).map
    toupper).takeWhile (· ≠ 0) = pre at hev hl2 ⊢
  have hfl : (pre ++ 0 :: rest ++ adjacent).length = 0x20 + adjacent.length := by
    simp only [List.length_append, List.length_cons]; omega
  constructor
  · intro hu h0 hfit
    have hj : to_jint (((pre.length : Int) + unknown) % 2 ^ 32).toNat
        = (pre.length : Int) + unknown := by
      unfold to_jint
      have e : (((pre.length : Int) + unknown) % 2 ^ 32).toNat
          = ((pre.length : Int) + unknown).toNat := by omega
      rw [e]
      have e2 : ((pre.length : Int) + unknown).toNat % 2 ^ 32
          = ((pre.length : Int) + unknown).toNat := by omega
      rw [e2, if_pos (by omega)]
      omega
    rw [if_pos hu, hj] at hev
    rw [if_neg (by omega), if_neg (by rw [hfl]; omega)] at hev
    refine ⟨_, hev, ?_⟩
    rw [List.length_take, hfl]
    omega
  · intro hu
    have hj : to_jint pre.length = (pre.length : Int) := by
      unfold to_jint
      have e2 : pre.length % 2 ^ 32 = pre.length := by omega
      rw [e2, if_pos (by omega)]
    have hnu : ¬ unknown ≤ 0x100 := by omega
    simp only [if_neg hnu, hj, Int.toNat_ofNat] at hev
    rw [if_neg (by omega), if_neg (by rw [hfl]; omega)] at hev
    refine ⟨_, hev, ?_⟩
    rw [List.length_take, hfl]
    omega

/-- C7, amended, at concrete inputs: the input `a` with the scalars 3 and `0x101`. -/
theorem vulnerableToUpper_length_witness :
    (∃ out, vulnerableToUpper [0x61] 3 [] = JResult.bytes out ∧ (out.length : Int) = 1 + 3) ∧
    (∃ out, vulnerableToUpper [0x61] 0x101 [] = JResult.bytes out ∧ out.length = 1) :=
  ⟨(vulnerableToUpper_length [0x61] [] 3 (by decide)).1 (by decide) (by decide) (by decide),
    (vulnerableToUpper_length [0x61] [] 0x101 (by decide)).2 (by decide)⟩

end EasyStackBufferOverflowModule

/-! ## HeapSCAModule: opcodes other than 0 and 1 -/

namespace HeapSCAModule

/-- C10: for every non-empty readable message whose first byte is neither 0 nor 1,
`handleMessage` leaves the process image as it was (no allocator operation is
performed, the trace of events is unchanged) and returns exactly 16 zero bytes; for
the empty message it returns `NULL`, no output. -/
theorem handleMessage_other_opcode {σ : Type} (A : Allocator σ) (w : World σ)
    (before after : Timespec) (op : Nat) (operand : List Nat)
    (h0 : op ≠ 0) (h1 : op ≠ 1) :
    handleMessage A w before after (some (op :: operand))
      = (w, JResult.bytes [0, 0, 0, 0, 0, 0, 0, 0, 0, 0, 0, 0, 0, 0, 0, 0]) ∧
    handleMessage A w before after (some []) = (w, JResult.null) := by
  constructor
  · simp only [handleMessage, if_neg h0, if_neg h1]
    rfl
  · rfl

/-- C10, at a concrete message: opcode 2 with an 8-byte operand, on the pinned
allocator. -/
theorem handleMessage_other_opcode_witness :
    (handleMessage Pinned.allocator ⟨Pinned.init 0x5000, fun _ => 0, []⟩ ⟨0, 0⟩ ⟨0, 10⟩
      (some [2, 0x20, 0, 0, 0, 0, 0, 0, 0])).1.trace = [] ∧
    (handleMessage Pinned.allocator ⟨Pinned.init 0x5000, fun _ => 0, []⟩ ⟨0, 0⟩ ⟨0, 10⟩
      (some [2, 0x20, 0, 0, 0, 0, 0, 0, 0])).2
        = JResult.bytes [0, 0, 0, 0, 0, 0, 0, 0, 0, 0, 0, 0, 0, 0, 0, 0] :=
  ⟨congrArg (fun r => r.1.trace)
      (handleMessage_other_opcode Pinned.allocator ⟨Pinned.init 0x5000, fun _ => 0, []⟩
        ⟨0, 0⟩ ⟨0, 10⟩ 2 [0x20, 0, 0, 0, 0, 0, 0, 0] (by decide) (by decide)).1,
    congrArg (fun r => r.2)
      (handleMessage_other_opcode Pinned.allocator ⟨Pinned.init 0x5000, fun _ => 0, []⟩
        ⟨0, 0⟩ ⟨0, 10⟩ 2 [0x20, 0, 0, 0, 0, 0, 0, 0] (by decide) (by decide)).1⟩

end HeapSCAModule

/-! ## The two-phase modules: output sizes and the phase flag -/

theorem World.trace_memcpy {σ : Type} (w : World σ) (d : Nat) (bs : List Nat) :
    (w.memcpy d bs).trace = w.trace ++ [Event.memcpy d bs] := rfl

theorem World.trace_free {σ : Type} (A : Allocator σ) (w : World σ) (p : Nat) :
    (w.free A p).trace = w.trace ++ [Event.free p] := rfl

theorem World.trace_malloc {σ : Type} (A : Allocator σ) (w : World σ) (n : Nat) :
    (w.malloc A n).2.trace = w.trace ++ [Event.malloc n (w.malloc A n).1] := rfl

theorem take_bounded (raw : List Nat) (n : Nat) :
    raw.take (if raw.length ≤ n then raw.length else n) = raw.take n := by
  split_ifs with h
  · rw [List.take_of_length_le (le_refl _), List.take_of_length_le h]
  · rfl

namespace PoCMemoryProbing

theorem step_flag {σ : Type} (A : Allocator σ) (st : PhaseState) (w : World σ)
    (data : Option (List Nat)) (h : st.called = 0 ∨ st.called = 1) :
    (storeInChunk A st w data).1.called = 0 ∨ (storeInChunk A st w data).1.called = 1 := by
  rcases h with h | h
  · right; simp only [storeInChunk, if_pos h]; omega
  · have hn : st.called ≠ 0 := by omega
    cases data with
    | none => right; simp only [storeInChunk, if_neg hn]; omega
    | some raw => left; simp only [storeInChunk, if_neg hn]

theorem run_flag {σ : Type} (A : Allocator σ) (calls : List (Option (List Nat))) :
    ∀ (st : PhaseState) (w : World σ), (st.called = 0 ∨ st.called = 1) →
      ((run A st w calls).1.called = 0 ∨ (run A st w calls).1.called = 1) := by
  induction calls with
  | nil => intro st w h; exact h
  | cons c cs ih =>
    intro st w h
    simp only [run]
    exact ih _ _ (step_flag A st w c h)

theorem run_alternates {σ : Type} (A : Allocator σ) (raws : List (List Nat)) :
    ∀ (st : PhaseState) (w : World σ), (st.called = 0 ∨ st.called = 1) →
      (run A st w (raws.map some)).1.called = (st.called + raws.length) % 2 := by
  induction raws with
  | nil => intro st w h; simp only [List.map_nil, run, List.length_nil]; omega
  | cons r rs ih =>
    intro st w h
    simp only [List.map_cons, run, List.length_cons]
    rcases h with h | h
    · have hs : (storeInChunk A st w (some r)).1.called = 1 := by
        simp only [storeInChunk, if_pos h]; omega
      rw [ih _ _ (Or.inr hs), hs, h]; omega
    · have hn : st.called ≠ 0 := by omega
      have hs : (storeInChunk A st w (some r)).1.called = 0 := by
        simp only [storeInChunk, if_neg hn]
      rw [ih _ _ (Or.inl hs), hs, h]; omega

end PoCMemoryProbing

namespace PoCPrimaryPoisoning

theorem primary_step_armed {σ : Type} (A : Allocator σ) (st : PhaseState) (w : World σ)
    (chunk : Option (List Nat)) (h : st.called = 0 ∨ st.called = 1) :
    (free A st w chunk).1.called = 1 := by
  rcases h with h | h
  · simp only [free, if_pos h]; omega
  · have hn : st.called ≠ 0 := by omega
    cases chunk with
    | none => simp only [free, if_neg hn]; omega
    | some raw => simp only [free, if_neg hn]; omega

theorem primary_run_armed {σ : Type} (A : Allocator σ) (calls : List (Option (List Nat))) :
    ∀ (st : PhaseState) (w : World σ), st.called = 1 → (run A st w calls).1.called = 1 := by
  induction calls with
  | nil => intro st w h; exact h
  | cons c cs ih =>
    intro st w h
    simp only [run]
    exact ih _ _ (primary_step_armed A st w c (Or.inr h))

theorem primary_armed_trace {σ : Type} (A : Allocator σ) (st : PhaseState)
    (w : World σ) (raw : List Nat) (h : st.called ≠ 0) :
    ∃ tail, (free A st w (some raw)).2.1.trace
        = w.trace ++ (Event.memcpy st.buffer (raw.take 0x20)
            :: Event.free ((st.buffer + 0x10) % 2 ^ 64) :: tail) := by
  simp only [free, if_neg h, take_bounded, World.trace_malloc, World.trace_free,
    World.trace_memcpy, List.append_assoc, List.cons_append, List.nil_append]
  exact ⟨_, rfl⟩

end PoCPrimaryPoisoning

namespace SecondaryFakeModule

theorem secondary_step_armed {σ : Type} (A : Allocator σ) (called : Nat) (w : World σ) (sp : Nat)
    (chunk : Option (List Nat)) (h : called = 0 ∨ called = 1) :
    (free A called w sp chunk).1 = 1 := by
  rcases h with h | h
  · simp only [free, if_pos h]; omega
  · have hn : called ≠ 0 := by omega
    cases chunk with
    | none => simp only [free, if_neg hn]; omega
    | some raw =>
      simp only [free, if_neg hn]
      split_ifs <;> exact h

theorem secondary_run_armed {σ : Type} (A : Allocator σ) (calls : List (Nat × Option (List Nat))) :
    ∀ (called : Nat) (w : World σ), called = 1 → (run A called w calls).1 = 1 := by
  induction calls with
  | nil => intro called w h; exact h
  | cons c cs ih =>
    intro called w h
    simp only [run]
    exact ih _ _ (secondary_step_armed A called w c.1 c.2 (Or.inr h))

theorem secondary_armed_trace {σ : Type} (A : Allocator σ) (called : Nat)
    (w : World σ) (sp : Nat) (raw : List Nat) (h : called ≠ 0) :
    ∃ tail, (free A called w sp (some raw)).2.1.trace
        = w.trace ++ (Event.memcpy sp (raw.take 0x100)
            :: Event.free ((sp + 0x30 + 0x10) % 2 ^ 64) :: tail) := by
  simp only [free, if_neg h, take_bounded]
  by_cases hlt : raw.length < 0x40 + (raw.length + 2 ^ 32 - 0x40) % 2 ^ 32
  · rw [if_pos hlt]
    simp only [World.trace_malloc, World.trace_free, World.trace_memcpy, List.append_assoc,
      List.cons_append, List.nil_append]
    exact ⟨_, rfl⟩
  · rw [if_neg hlt]
    simp only [World.trace_malloc, World.trace_free, World.trace_memcpy, List.append_assoc,
      List.cons_append, List.nil_append]
    exact ⟨_, rfl⟩

end SecondaryFakeModule

/-- C8, refuted as stated: in `PoCPrimaryPoisoning.free` the first call arms the module
and allocates the buffer; a second call whose input is unreadable is a call after the
first, keeps the module Armed, yet adds no event: it performs neither the copy nor the
mis-free, and returns `NULL`. -/
theorem primary_poisoning_unreadable_call_skips_copy :
    (PoCPrimaryPoisoning.run Pinned.allocator PhaseState.init
      ⟨Pinned.init 0x5000, fun _ => 0, []⟩ [some []]).1.called = 1 ∧
    (PoCPrimaryPoisoning.run Pinned.allocator PhaseState.init
      ⟨Pinned.init 0x5000, fun _ => 0, []⟩ [some []]).2.trace
        = [Event.malloc 0x20 0x5000] ∧
    (PoCPrimaryPoisoning.run Pinned.allocator PhaseState.init
      ⟨Pinned.init 0x5000, fun _ => 0, []⟩ [some [], none]).1.called = 1 ∧
    (PoCPrimaryPoisoning.run Pinned.allocator PhaseState.init
      ⟨Pinned.init 0x5000, fun _ => 0, []⟩ [some [], none]).2.trace
        = [Event.malloc 0x20 0x5000] ∧
    (PoCPrimaryPoisoning.free Pinned.allocator ⟨1, 0x5000⟩
      ⟨Pinned.init 0x5000, fun _ => 0, []⟩ none).2.2 = JResult.null := by
  decide

/-- C8, amended: the phase flag of every two-phase module only ever holds 0 (Idle) or 1
(Armed), and the first call always moves Idle to Armed whatever the input is; in
`PoCMemoryProbing.storeInChunk` every Armed call with a readable input returns the
state to Idle, so calls with readable inputs strictly alternate phase 1, phase 2,
phase 1, ...; in `PoCPrimaryPoisoning.free` and `SecondaryFakeModule.free` no call
ever returns the state to Idle, so every call after the first is made in the Armed
state, and it performs the copy and the mis-free again whenever its input is
readable. -/
theorem phase_flag_transitions {σ : Type} (A : Allocator σ) (w : World σ) :
    (∀ calls, (PoCMemoryProbing.run A PhaseState.init w calls).1.called = 0 ∨
      (PoCMemoryProbing.run A PhaseState.init w calls).1.called = 1) ∧
    (∀ calls, (PoCPrimaryPoisoning.run A PhaseState.init w calls).1.called = 0 ∨
      (PoCPrimaryPoisoning.run A PhaseState.init w calls).1.called = 1) ∧
    (∀ calls, (SecondaryFakeModule.run A 0 w calls).1 = 0 ∨
      (SecondaryFakeModule.run A 0 w calls).1 = 1) ∧
    (∀ buffer input, (PoCMemoryProbing.storeInChunk A ⟨0, buffer⟩ w input).1.called = 1) ∧
    (∀ buffer input, (PoCPrimaryPoisoning.free A ⟨0, buffer⟩ w input).1.called = 1) ∧
    (∀ sp input, (SecondaryFakeModule.free A 0 w sp input).1 = 1) ∧
    (∀ buffer raw,
      (PoCMemoryProbing.storeInChunk A ⟨1, buffer⟩ w (some raw)).1.called = 0) ∧
    (∀ raws : List (List Nat),
      (PoCMemoryProbing.run A PhaseState.init w (raws.map some)).1.called
        = raws.length % 2) ∧
    (∀ c calls, (PoCPrimaryPoisoning.run A PhaseState.init w (c :: calls)).1.called = 1) ∧
    (∀ c calls, (SecondaryFakeModule.run A 0 w (c :: calls)).1 = 1) ∧
    (∀ buffer raw, ∃ tail,
      (PoCPrimaryPoisoning.free A ⟨1, buffer⟩ w (some raw)).2.1.trace
        = w.trace ++ (Event.memcpy buffer (raw.take 0x20)
            :: Event.free ((buffer + 0x10) % 2 ^ 64) :: tail)) ∧
    (∀ sp raw, ∃ tail,
      (SecondaryFakeModule.free A 1 w sp (some raw)).2.1.trace
        = w.trace ++ (Event.memcpy sp (raw.take 0x100)
            :: Event.free ((sp + 0x30 + 0x10) % 2 ^ 64) :: tail)) := by
  refine ⟨?_, ?_, ?_, ?_, ?_, ?_, ?_, ?_, ?_, ?_, ?_, ?_⟩
  · intro calls
    exact PoCMemoryProbing.run_flag A calls _ w (Or.inl rfl)
  · intro calls
    cases calls with
    | nil => exact Or.inl rfl
    | cons c cs =>
      right
      simp only [PoCPrimaryPoisoning.run]
      exact PoCPrimaryPoisoning.primary_run_armed A cs _ _
        (PoCPrimaryPoisoning.primary_step_armed A _ w c (Or.inl rfl))
  · intro calls
    cases calls with
    | nil => exact Or.inl rfl
    | cons c cs =>
      right
      simp only [SecondaryFakeModule.run]
      exact SecondaryFakeModule.secondary_run_armed A cs _ _
        (SecondaryFakeModule.secondary_step_armed A 0 w c.1 c.2 (Or.inl rfl))
  · intro buffer input
    simp only [PoCMemoryProbing.storeInChunk, if_true]
  · intro buffer input
    exact PoCPrimaryPoisoning.primary_step_armed A _ w input (Or.inl rfl)
  · intro sp input
    exact SecondaryFakeModule.secondary_step_armed A 0 w sp input (Or.inl rfl)
  · intro buffer raw
    simp only [PoCMemoryProbing.storeInChunk, if_neg (show (1 : Nat) ≠ 0 by decide)]
  · intro raws
    have := PoCMemoryProbing.run_alternates A raws PhaseState.init w (Or.inl rfl)
    simpa [PhaseState.init] using this
  · intro c calls
    simp only [PoCPrimaryPoisoning.run]
    exact PoCPrimaryPoisoning.primary_run_armed A calls _ _
      (PoCPrimaryPoisoning.primary_step_armed A _ w c (Or.inl rfl))
  · intro c calls
    simp only [SecondaryFakeModule.run]
    exact SecondaryFakeModule.secondary_run_armed A calls _ _
      (SecondaryFakeModule.secondary_step_armed A 0 w c.1 c.2 (Or.inl rfl))
  · intro buffer raw
    exact PoCPrimaryPoisoning.primary_armed_trace A ⟨1, buffer⟩ w raw Nat.one_ne_zero
  · intro sp raw
    exact SecondaryFakeModule.secondary_armed_trace A 1 w sp raw Nat.one_ne_zero

/-! ## The address space: reading back what was written -/

theorem Mem.store_apply (m : Mem) (a : Nat) (bs : List Nat) (i : Nat)
    (hi : i < bs.length) (hb : bs.length ≤ 2 ^ 64) :
    (m.store a bs) ((a + i) % 2 ^ 64) = bs.getD i 0 := by
  have hidx : ((a + i) % 2 ^ 64 + 2 ^ 64 - a % 2 ^ 64) % 2 ^ 64 = i := by omega
  simp only [Mem.store, hidx, List.getD_eq_getElem?_getD]
  rw [List.getElem?_eq_getElem hi]
  rfl

theorem Mem.load_store (m : Mem) (a : Nat) (bs : List Nat) (n : Nat)
    (hn : n ≤ bs.length) (hb : bs.length ≤ 2 ^ 64) :
    (m.store a bs).load a n = bs.take n := by
  apply List.ext_getElem
  · simp only [Mem.load, List.length_map, List.length_range, List.length_take]; omega
  · intro i h1 h2
    simp only [Mem.load, List.length_map, List.length_range] at h1
    simp only [Mem.load, List.getElem_map, List.getElem_range, List.getElem_take]
    rw [Mem.store_apply m a bs i (by omega) hb, List.getD_eq_getElem?_getD,
      List.getElem?_eq_getElem (by omega)]
    rfl

theorem le_value_le_bytes (n v : Nat) : le_value (le_bytes n v) = v % 256 ^ n := by
  induction n generalizing v with
  | zero => simp [le_bytes, le_value, Nat.mod_one]
  | succ k ih =>
    simp only [le_bytes, le_value, ih]
    rw [pow_succ, Nat.mul_comm (256 ^ k) 256, Nat.mod_mul]

/-! ## The pinned allocator: the most recently freed chunk is reused -/

namespace Pinned

theorem size_of_malloc_self (s : Pinned) (size : Nat) :
    (s.malloc size).2.size_of (s.malloc size).1 = some size := by
  unfold malloc
  cases hf : s.free_list.find? (fun p => s.size_of p = some size) with
  | none => simp [size_of]
  | some p =>
    have := List.find?_some hf
    simpa [size_of] using this

theorem size_of_malloc_mono (s : Pinned) (size q : Nat) (h : s.size_of q = some size) :
    (s.malloc size).2.size_of q = some size := by
  unfold malloc
  cases hf : s.free_list.find? (fun p => s.size_of p = some size) with
  | none =>
    by_cases hq : s.brk = q
    · simp [size_of, hq]
    · simpa [size_of, List.find?_cons, hq] using h
  | some p => simpa [size_of] using h

theorem free_of_size (s : Pinned) (p n : Nat) (h : s.size_of p = some n) :
    s.free p = { s with free_list := p :: s.free_list } := by
  unfold free
  rw [h]

theorem malloc_head (s : Pinned) (p size : Nat) (rest : List Nat)
    (hl : s.free_list = p :: rest) (h : s.size_of p = some size) :
    s.malloc size = (p, { s with free_list := rest }) := by
  unfold malloc
  have hf : s.free_list.find? (fun q => s.size_of q = some size) = some p := by
    rw [hl, List.find?_cons_of_pos]
    simpa using h
  rw [hf]
  simp [hl]

end Pinned

theorem World.calloc_pinned (w : World Pinned) (size p : Nat) (s1 : Pinned)
    (h : w.heap.malloc size = (p, s1)) :
    w.calloc Pinned.allocator size
      = (p, ⟨s1, w.mem.store p (List.replicate size 0), w.trace ++ [Event.malloc size p]⟩) := by
  unfold World.calloc Pinned.allocator
  simp only [h]

theorem World.malloc_pinned (w : World Pinned) (size p : Nat) (s1 : Pinned)
    (h : w.heap.malloc size = (p, s1)) :
    w.malloc Pinned.allocator size
      = (p, ⟨s1, w.mem, w.trace ++ [Event.malloc size p]⟩) := by
  unfold World.malloc Pinned.allocator
  simp only [h]

theorem World.free_pinned (w : World Pinned) (p : Nat) (s1 : Pinned) (h : w.heap.free p = s1) :
    w.free Pinned.allocator p = ⟨s1, w.mem, w.trace ++ [Event.free p]⟩ := by
  unfold World.free Pinned.allocator
  simp only [h]

theorem World.mem_free_pinned (w : World Pinned) (p : Nat) :
    (w.free Pinned.allocator p).mem = w.mem := rfl

theorem World.mem_memcpy {σ : Type} (w : World σ) (d : Nat) (bs : List Nat) :
    (w.memcpy d bs).mem = w.mem.store d bs := rfl

theorem World.mem_store64 {σ : Type} (w : World σ) (a v : Nat) :
    (w.store64 a v).mem = w.mem.store a (le_bytes 8 v) := rfl

theorem World.trace_store64 {σ : Type} (w : World σ) (a v : Nat) :
    (w.store64 a v).trace = w.trace ++ [Event.store64 (a % 2 ^ 64) (v % 2 ^ 64)] := rfl

theorem Mem.store_first (m : Mem) (a v : Nat) :
    (m.store a (le_bytes 8 v)) (a % 2 ^ 64) = v % 256 := by
  have h := Mem.store_apply m a (le_bytes 8 v) 0 (by rw [le_bytes_length]; decide)
    (by rw [le_bytes_length]; decide)
  rw [Nat.add_zero] at h
  rw [h]
  rfl

theorem Mem.load64_store (m : Mem) (a : Nat) (bs : List Nat) (h8 : 8 ≤ bs.length)
    (hb : bs.length ≤ 2 ^ 64) :
    (m.store a bs).load64 a = le_value (bs.take 8) := by
  unfold Mem.load64
  rw [Mem.load_store m a bs 8 h8 hb]

/-! ## DoubleFreeModule: the write-what-where on the pinned allocator -/

namespace DoubleFreeModule

theorem sizeof_ref_eq : sizeof_ref = 8 := by decide

theorem char_to_u64_low (char_signed : Bool) (b : Nat) :
    char_to_u64 char_signed b % 256 = b % 256 := by
  unfold char_to_u64
  split_ifs <;> omega

/-- C5: on the pinned allocator (last freed, first reused, double frees undetected), from
any allocator state and any memory, for every readable input of at least 16 bytes:
`vulnerable` runs to its end; the three re-allocations return the chunks `x`, `y`, `x`,
so the re-allocated first and third chunk are the same chunk; the pointer copied into
the third chunk (input bytes 0..7) is the one dereferenced through the first; and
afterwards the byte stored at that address is input byte 8, the low byte of field 2. -/
theorem vulnerable_write_what_where (s : Pinned) (m : Mem) (tr : List Event)
    (char_signed : Bool) (raw : List Nat) (h : 16 ≤ raw.length) :
    ∃ x y z w,
      vulnerable Pinned.allocator char_signed ⟨s, m, tr⟩ (some raw) = some w ∧
      w.mem (le_value (raw.take 8) % 2 ^ 64) = raw.getD 8 0 % 256 ∧
      w.trace = tr ++ [Event.malloc 8 x, Event.malloc 8 y, Event.malloc 8 z,
        Event.free x, Event.free y, Event.free x,
        Event.malloc 8 x, Event.malloc 8 y, Event.malloc 8 x,
        Event.memcpy x (raw.take 8),
        Event.store64 (le_value (raw.take 8) % 2 ^ 64)
          (char_to_u64 char_signed (raw.getD 8 0) % 2 ^ 64),
        Event.free x, Event.free y] := by
  obtain ⟨x, s1, h1⟩ : ∃ x s1, s.malloc 8 = (x, s1) := ⟨_, _, Prod.mk.eta.symm⟩
  obtain ⟨y, s2, h2⟩ : ∃ y s2, s1.malloc 8 = (y, s2) := ⟨_, _, Prod.mk.eta.symm⟩
  obtain ⟨z, s3, h3⟩ : ∃ z s3, s2.malloc 8 = (z, s3) := ⟨_, _, Prod.mk.eta.symm⟩
  have hx1 : s1.size_of x = some 8 := by
    have := Pinned.size_of_malloc_self s 8; rwa [h1] at this
  have hy2 : s2.size_of y = some 8 := by
    have := Pinned.size_of_malloc_self s1 8; rwa [h2] at this
  have hx2 : s2.size_of x = some 8 := by
    have := Pinned.size_of_malloc_mono s1 8 x hx1; rwa [h2] at this
  have hx3 : s3.size_of x = some 8 := by
    have := Pinned.size_of_malloc_mono s2 8 x hx2; rwa [h3] at this
  have hy3 : s3.size_of y = some 8 := by
    have := Pinned.size_of_malloc_mono s2 8 y hy2; rwa [h3] at this
  have f1 : s3.free x = ⟨s3.chunks, x :: s3.free_list, s3.brk⟩ :=
    Pinned.free_of_size s3 x 8 hx3
  have f2 : Pinned.free ⟨s3.chunks, x :: s3.free_list, s3.brk⟩ y
      = ⟨s3.chunks, y :: x :: s3.free_list, s3.brk⟩ :=
    Pinned.free_of_size _ y 8 hy3
  have f3 : Pinned.free ⟨s3.chunks, y :: x :: s3.free_list, s3.brk⟩ x
      = ⟨s3.chunks, x :: y :: x :: s3.free_list, s3.brk⟩ :=
    Pinned.free_of_size _ x 8 hx3
  have m1 : Pinned.malloc ⟨s3.chunks, x :: y :: x :: s3.free_list, s3.brk⟩ 8
      = (x, ⟨s3.chunks, y :: x :: s3.free_list, s3.brk⟩) :=
    Pinned.malloc_head _ x 8 _ rfl hx3
  have m2 : Pinned.malloc ⟨s3.chunks, y :: x :: s3.free_list, s3.brk⟩ 8
      = (y, ⟨s3.chunks, x :: s3.free_list, s3.brk⟩) :=
    Pinned.malloc_head _ y 8 _ rfl hy3
  have m3 : Pinned.malloc ⟨s3.chunks, x :: s3.free_list, s3.brk⟩ 8
      = (x, ⟨s3.chunks, s3.free_list, s3.brk⟩) :=
    Pinned.malloc_head _ x 8 _ rfl hx3
  have hlen : ¬ raw.length < 9 := by omega
  refine ⟨x, y, z, ?_⟩
  unfold vulnerable
  rw [sizeof_ref_eq]
  rw [World.calloc_pinned ⟨s, m, tr⟩ 8 x s1 h1]
  simp only []
  rw [World.calloc_pinned ⟨s1, _, _⟩ 8 y s2 h2]
  simp only []
  rw [World.calloc_pinned ⟨s2, _, _⟩ 8 z s3 h3]
  simp only []
  rw [World.free_pinned ⟨s3, _, _⟩ x _ f1]
  rw [World.free_pinned ⟨⟨s3.chunks, x :: s3.free_list, s3.brk⟩, _, _⟩ y _ f2]
  rw [World.free_pinned ⟨⟨s3.chunks, y :: x :: s3.free_list, s3.brk⟩, _, _⟩ x _ f3]
  rw [World.calloc_pinned ⟨⟨s3.chunks, x :: y :: x :: s3.free_list, s3.brk⟩, _, _⟩ 8 x _ m1]
  simp only []
  rw [World.calloc_pinned ⟨⟨s3.chunks, y :: x :: s3.free_list, s3.brk⟩, _, _⟩ 8 y _ m2]
  simp only []
  rw [World.calloc_pinned ⟨⟨s3.chunks, x :: s3.free_list, s3.brk⟩, _, _⟩ 8 x _ m3]
  simp only []
  rw [if_neg hlen]
  generalize (((((m.store x (List.replicate 8 0)).store y (List.replicate 8 0)).store z
    (List.replicate 8 0)).store x (List.replicate 8 0)).store y (List.replicate 8 0)).store x
    (List.replicate 8 0) = M
  have hload : (M.store x (raw.take 8)).load64 x = le_value (raw.take 8) := by
    have := Mem.load64_store M x (raw.take 8)
      (by rw [List.length_take]; omega) (by rw [List.length_take]; omega)
    rw [this, List.take_take]
    rfl
  refine ⟨_, rfl, ?_, ?_⟩
  · rw [World.mem_free_pinned, World.mem_free_pinned, World.mem_store64, World.mem_memcpy,
      hload, Mem.store_first, char_to_u64_low]
  · rw [World.trace_free, World.trace_free, World.trace_store64, World.trace_memcpy,
      World.mem_memcpy, hload]
    simp only [List.append_assoc, List.cons_append, List.nil_append]

end DoubleFreeModule

namespace DoubleFreeModule

/-- C5, at a concrete run: a fresh pinned allocator, the address `0x2010` in field 1 and
the byte `0x99` in field 2. -/
theorem vulnerable_write_what_where_witness :
    ∃ x y z w,
      vulnerable Pinned.allocator false ⟨Pinned.init 0x5000, fun _ => 0xAA, []⟩
        (some [0x10, 0x20, 0, 0, 0, 0, 0, 0, 0x99, 1, 2, 3, 4, 5, 6, 7]) = some w ∧
      w.mem 0x2010 = 0x99 ∧
      w.trace = [Event.malloc 8 x, Event.malloc 8 y, Event.malloc 8 z,
        Event.free x, Event.free y, Event.free x,
        Event.malloc 8 x, Event.malloc 8 y, Event.malloc 8 x,
        Event.memcpy x [0x10, 0x20, 0, 0, 0, 0, 0, 0],
        Event.store64 0x2010 0x99,
        Event.free x, Event.free y] :=
  vulnerable_write_what_where (Pinned.init 0x5000) (fun _ => 0xAA) [] false
    [0x10, 0x20, 0, 0, 0, 0, 0, 0, 0x99, 1, 2, 3, 4, 5, 6, 7] (by decide)

end DoubleFreeModule

/-! ## The use-after-free modules on the pinned allocator -/

theorem take_capped (key : List Nat) (n : Nat) :
    key.take (if key.length > n then n else key.length) = key.take n := by
  split_ifs with h
  · rfl
  · rw [List.take_of_length_le (le_refl _), List.take_of_length_le (by omega)]

theorem Pinned.malloc_free_malloc (s : Pinned) (size : Nat) :
    ∃ p s1, s.malloc size = (p, s1) ∧
      s1.free p = ⟨s1.chunks, p :: s1.free_list, s1.brk⟩ ∧
      Pinned.malloc ⟨s1.chunks, p :: s1.free_list, s1.brk⟩ size
        = (p, ⟨s1.chunks, s1.free_list, s1.brk⟩) := by
  obtain ⟨p, s1, h1⟩ : ∃ p s1, s.malloc size = (p, s1) := ⟨_, _, Prod.mk.eta.symm⟩
  have hp1 : s1.size_of p = some size := by
    have := Pinned.size_of_malloc_self s size; rwa [h1] at this
  exact ⟨p, s1, h1, Pinned.free_of_size s1 p size hp1, Pinned.malloc_head _ p size _ rfl hp1⟩

theorem uaf_write_sizeof_manager : UseAfterFreeWriteModule.sizeof_manager = 264 := by decide

theorem uaf_write_sizeof_object : UseAfterFreeWriteModule.sizeof_object = 264 := by decide

theorem uaf_write_offsetof_key : UseAfterFreeWriteModule.offsetof_key = 0 := by decide

theorem uaf_write_offsetof_values : UseAfterFreeWriteModule.offsetof_values = 0 := by decide

theorem uaf_write_store (s : Pinned) (m : Mem) (tr : List Event) (key : List Nat)
    (value : Int) (h : 8 ≤ key.length) :
    ∃ p w,
      UseAfterFreeWriteModule.storePair Pinned.allocator ⟨s, m, tr⟩ (some key) value
        = some w ∧
      w.mem.load (le_value (key.take 8)) 8 = le_bytes 8 (value % 2 ^ 64).toNat ∧
      w.trace = tr ++ [Event.malloc 264 p, Event.free p, Event.malloc 264 p,
        Event.memcpy p (key.take 256),
        Event.store64 (le_value (key.take 8) % 2 ^ 64) ((value % 2 ^ 64).toNat % 2 ^ 64),
        Event.free p] := by
  obtain ⟨p, s1, h1, f1, m1⟩ := Pinned.malloc_free_malloc s 264
  refine ⟨p, ?_⟩
  unfold UseAfterFreeWriteModule.storePair
  rw [uaf_write_sizeof_manager, uaf_write_sizeof_object, uaf_write_offsetof_key,
    uaf_write_offsetof_values]
  rw [World.malloc_pinned ⟨s, m, tr⟩ 264 p s1 h1]
  simp only []
  rw [World.free_pinned ⟨s1, _, _⟩ p _ f1]
  rw [World.malloc_pinned ⟨⟨s1.chunks, p :: s1.free_list, s1.brk⟩, _, _⟩ 264 p _ m1]
  simp only [take_capped, Nat.add_zero]
  have hload : (m.store p (key.take 256)).load64 p = le_value (key.take 8) := by
    have := Mem.load64_store m p (key.take 256)
      (by rw [List.length_take]; omega) (by rw [List.length_take]; omega)
    rw [this, List.take_take]
    rfl
  refine ⟨_, rfl, ?_, ?_⟩
  · rw [World.mem_free_pinned, World.mem_store64, World.mem_memcpy, hload,
      Mem.load_store _ _ _ 8 (by rw [le_bytes_length]) (by rw [le_bytes_length]; decide)]
    exact List.take_of_length_le (by rw [le_bytes_length])
  · rw [World.trace_free, World.trace_store64, World.trace_memcpy, World.mem_memcpy, hload]
    simp only [List.append_assoc, List.cons_append, List.nil_append]

theorem World.store64_mk {σ : Type} (hp : σ) (mm : Mem) (t : List Event) (a v : Nat) :
    (World.mk hp mm t).store64 a v
      = ⟨hp, mm.store a (le_bytes 8 v), t ++ [Event.store64 (a % 2 ^ 64) (v % 2 ^ 64)]⟩ := rfl

theorem World.memcpy_mk {σ : Type} (hp : σ) (mm : Mem) (t : List Event) (d : Nat)
    (bs : List Nat) :
    (World.mk hp mm t).memcpy d bs = ⟨hp, mm.store d bs, t ++ [Event.memcpy d bs]⟩ := rfl

theorem uaf_exec_sizeof_manager : UseAfterFreeExecModule.sizeof_manager = 264 := by decide

theorem uaf_exec_sizeof_object : UseAfterFreeExecModule.sizeof_object = 264 := by decide

theorem uaf_exec_offsetof_key : UseAfterFreeExecModule.offsetof_key = 0 := by decide

theorem uaf_exec_offsetof_value : UseAfterFreeExecModule.offsetof_value = 256 := by decide

theorem uaf_exec_offsetof_make_printable :
    UseAfterFreeExecModule.offsetof_make_printable = 256 := by decide

theorem uaf_exec_call (img : UseAfterFreeExecModule.Image) (s : Pinned) (m : Mem)
    (tr : List Event) (key : List Nat) (value : Int) :
    ∃ p tail,
      (UseAfterFreeExecModule.storePair Pinned.allocator img ⟨s, m, tr⟩ (some key)
        value).1.trace
        = tr ++ (Event.malloc 264 p
          :: Event.store64 ((p + 256) % 2 ^ 64) (img.make_printable % 2 ^ 64)
          :: Event.free p :: Event.malloc 264 p :: Event.memcpy p (key.take 256)
          :: Event.store64 ((p + 256) % 2 ^ 64) ((value % 2 ^ 64).toNat % 2 ^ 64)
          :: Event.call (value % 2 ^ 64).toNat :: tail) := by
  obtain ⟨p, s1, h1, f1, m1⟩ := Pinned.malloc_free_malloc s 264
  refine ⟨p, ?_⟩
  unfold UseAfterFreeExecModule.storePair
  rw [uaf_exec_sizeof_manager, uaf_exec_sizeof_object, uaf_exec_offsetof_key,
    uaf_exec_offsetof_value, uaf_exec_offsetof_make_printable]
  rw [World.malloc_pinned ⟨s, m, tr⟩ 264 p s1 h1]
  simp only []
  rw [World.store64_mk s1 m (tr ++ [Event.malloc 264 p]) (p + 256) img.make_printable]
  rw [World.free_pinned ⟨s1, _, _⟩ p _ f1]
  rw [World.calloc_pinned ⟨⟨s1.chunks, p :: s1.free_list, s1.brk⟩, _, _⟩ 264 p _ m1]
  simp only [take_capped, Nat.add_zero]
  generalize (m.store (p + 256) (le_bytes 8 img.make_printable)).store p
    (List.replicate 264 0) = M0
  rw [World.memcpy_mk _ M0 _ p (key.take 256), World.store64_mk _ _ _ (p + 256)]
  have hv : (value % 2 ^ 64).toNat < 2 ^ 64 := by omega
  have hload : ((M0.store p (key.take 256)).store (p + 256)
      (le_bytes 8 (value % 2 ^ 64).toNat)).load64 (p + 256) = (value % 2 ^ 64).toNat := by
    rw [Mem.load64_store _ _ _ (by rw [le_bytes_length]) (by rw [le_bytes_length]; decide),
      List.take_of_length_le (by rw [le_bytes_length]), le_value_le_bytes]
    exact Nat.mod_eq_of_lt hv
  simp only [hload, UseAfterFreeExecModule.call]
  generalize (if (value % 2 ^ 64).toNat = img.make_printable then some img.todo_literal
    else img.exec (value % 2 ^ 64).toNat) = r
  cases r with
  | none =>
    simp only [List.append_assoc, List.cons_append, List.nil_append]
    exact ⟨_, rfl⟩
  | some result =>
    simp only []
    cases c_strlen (le_bytes 8 result) with
    | none =>
      simp only [List.append_assoc, List.cons_append, List.nil_append]
      exact ⟨_, rfl⟩
    | some k =>
      simp only [World.trace_free, List.append_assoc, List.cons_append, List.nil_append]
      exact ⟨_, rfl⟩

/-- C9: in both use-after-free modules the manager record and the key/value record have
the same size (264 bytes with 8-byte pointers); `values[0]` lies at the offset of `key`
(bytes 0..7 of the key) in the write variant, and `make_printable` at the offset of
`value` (256) in the exec variant. On the pinned allocator, which hands the chunk just
freed to the next request of the same size, from any allocator state and memory and
for every readable key of at least 8 bytes: in the write variant both records are the
chunk `p`, `storePair` runs to its end and stores `value` (its 64-bit pattern) at the
address encoded by the first 8 key bytes; in the exec variant both records are the
chunk `p` and `storePair` calls the address equal to `value`. -/
theorem use_after_free_reuse (img : UseAfterFreeExecModule.Image) (s : Pinned) (m : Mem)
    (tr : List Event) (key : List Nat) (value : Int) (h : 8 ≤ key.length) :
    (UseAfterFreeWriteModule.sizeof_manager = 264 ∧
      UseAfterFreeWriteModule.sizeof_object = 264 ∧
      UseAfterFreeExecModule.sizeof_manager = 264 ∧
      UseAfterFreeExecModule.sizeof_object = 264) ∧
    (UseAfterFreeWriteModule.offsetof_values = UseAfterFreeWriteModule.offsetof_key ∧
      UseAfterFreeExecModule.offsetof_make_printable = 256 ∧
      UseAfterFreeExecModule.offsetof_value = 256) ∧
    (∃ p w,
      UseAfterFreeWriteModule.storePair Pinned.allocator ⟨s, m, tr⟩ (some key) value
        = some w ∧
      w.mem.load (le_value (key.take 8)) 8 = le_bytes 8 (value % 2 ^ 64).toNat ∧
      w.trace = tr ++ [Event.malloc 264 p, Event.free p, Event.malloc 264 p,
        Event.memcpy p (key.take 256),
        Event.store64 (le_value (key.take 8) % 2 ^ 64) ((value % 2 ^ 64).toNat % 2 ^ 64),
        Event.free p]) ∧
    (∃ p tail,
      (UseAfterFreeExecModule.storePair Pinned.allocator img ⟨s, m, tr⟩ (some key)
        value).1.trace
        = tr ++ (Event.malloc 264 p
          :: Event.store64 ((p + 256) % 2 ^ 64) (img.make_printable % 2 ^ 64)
          :: Event.free p :: Event.malloc 264 p :: Event.memcpy p (key.take 256)
          :: Event.store64 ((p + 256) % 2 ^ 64) ((value % 2 ^ 64).toNat % 2 ^ 64)
          :: Event.call (value % 2 ^ 64).toNat :: tail)) :=
  ⟨⟨uaf_write_sizeof_manager, uaf_write_sizeof_object, uaf_exec_sizeof_manager,
      uaf_exec_sizeof_object⟩,
    ⟨by rw [uaf_write_offsetof_values, uaf_write_offsetof_key],
      uaf_exec_offsetof_make_printable, uaf_exec_offsetof_value⟩,
    uaf_write_store s m tr key value h, uaf_exec_call img s m tr key value⟩

/-- C9, at a concrete run: a fresh pinned allocator, a 9-byte key whose first 8 bytes
encode the address `0x2010`, and the value `0x1234`. -/
theorem use_after_free_reuse_witness :
    (∃ p w,
      UseAfterFreeWriteModule.storePair Pinned.allocator
        ⟨Pinned.init 0x5000, fun _ => 0xAA, []⟩
        (some [0x10, 0x20, 0, 0, 0, 0, 0, 0, 0x99]) 0x1234 = some w ∧
      w.mem.load 0x2010 8 = [0x34, 0x12, 0, 0, 0, 0, 0, 0] ∧
      w.trace = [Event.malloc 264 p, Event.free p, Event.malloc 264 p,
        Event.memcpy p [0x10, 0x20, 0, 0, 0, 0, 0, 0, 0x99],
        Event.store64 0x2010 0x1234, Event.free p]) ∧
    (∃ p tail,
      (UseAfterFreeExecModule.storePair Pinned.allocator ⟨0x400, 0x800, fun _ => none⟩
        ⟨Pinned.init 0x5000, fun _ => 0xAA, []⟩
        (some [0x10, 0x20, 0, 0, 0, 0, 0, 0, 0x99]) 0x1234).1.trace
        = Event.malloc 264 p :: Event.store64 ((p + 256) % 2 ^ 64) 0x400
          :: Event.free p :: Event.malloc 264 p
          :: Event.memcpy p [0x10, 0x20, 0, 0, 0, 0, 0, 0, 0x99]
          :: Event.store64 ((p + 256) % 2 ^ 64) 0x1234
          :: Event.call 0x1234 :: tail) :=
  (use_after_free_reuse ⟨0x400, 0x800, fun _ => none⟩ (Pinned.init 0x5000)
    (fun _ => 0xAA) [] [0x10, 0x20, 0, 0, 0, 0, 0, 0, 0x99] 0x1234 (by decide)).2.2

end Eeva
